import Mathlib

/-!
Verification development for the SAX (Symbolic Aggregate approXimation)
transformer of aeon/transformations/panel/dictionary_based/_sax_fast.py
(class SAX_FAST).

Modelling conventions (shallow embedding, exact arithmetic):

* Machine floats are modelled by exact rational arithmetic.  A float value
  that can be NaN is modelled by the type SVal, which is either a rational
  or the non-finite marker SVal.nan; arithmetic on SVal propagates nan the
  way IEEE arithmetic does (every operation with a nan operand yields nan,
  including multiplication by zero).

* Per-window z-normalisation (scipy.stats.zscore with ddof=0) divides by
  the population standard deviation, the square root of the variance,
  which is irrational in general.  To stay inside the rationals, a
  z-scored value (x - mean) / sqrt(var) is represented by its numerator
  x - mean together with the window's variance var, carried separately.
  Every later stage of the pipeline (PAA) is linear in the data, so the
  whole pattern of one window is a family of numerators over one common
  denominator sqrt(var); the only places the denominator matters are the
  breakpoint comparisons, which are decided by sign analysis and squaring
  (breakLE below).  When the variance is zero the division 0/0 produces nan
  for every entry of the window, which the embedding takes directly.

* numpy integer matrices are lists of lists of naturals (all word values
  are non-negative), numpy float matrices are lists of lists of SVal.
  Writing into a preallocated np.zeros row is List.set into a
  List.replicate of zeros.

* Exceptions are an explicit error type: np.zeros raises on a negative
  dimension, the two RuntimeError validations raise before anything else.
  The mutation order of the Python method is kept: self.letter_bits is
  assigned only after both validations and the output allocation succeed,
  self.words only when save_words is set.
-/

/-- Model of a float that may be NaN: either an exact rational or nan. -/
inductive SVal where
  | nan : SVal
  | q : ℚ → SVal
deriving DecidableEq, Repr

/-- Model of IEEE addition on SVal: nan propagates through addition. -/
def SVal.add : SVal → SVal → SVal
  | .q a, .q b => .q (a + b)
  | _, _ => .nan

/-- Model of IEEE multiplication by a scalar: nan propagates, also when the
scalar is zero (0 * nan = nan for floats). -/
def SVal.mulQ : SVal → ℚ → SVal
  | .q a, c => .q (a * c)
  | .nan, _ => .nan

/-- Model of IEEE division by a scalar.  A zero denominator gives nan: the
only reachable zero-denominator division in the pipeline is 0.0/0.0 (the
flush of an empty accumulator when frame_length is 0), which is nan. -/
def SVal.divQ : SVal → ℚ → SVal
  | .q a, c => if c = 0 then .nan else .q (a / c)
  | .nan, _ => .nan

/-- Breakpoint entry: a finite rational threshold or the +infinity
sentinel that terminates every row of the breakpoint table. -/
inductive Bp where
  | val : ℚ → Bp
  | posInf : Bp
deriving DecidableEq, Repr

/-- Model of SAX_FAST._generate_breakpoints: the UEA gaussian breakpoint
table, keyed by alphabet_size.  Keys 2..10 are present; any other key
raises KeyError in Python, but the call is reachable only after the
alphabet_size in [2,4] validation, so the default [] is never consumed. -/
def generate_breakpoints (alphabet_size : ℕ) : List Bp :=
  match alphabet_size with
  | 2 => [.val 0, .posInf]
  | 3 => [.val (-43/100), .val (43/100), .posInf]
  | 4 => [.val (-67/100), .val 0, .val (67/100), .posInf]
  | 5 => [.val (-84/100), .val (-25/100), .val (25/100), .val (84/100), .posInf]
  | 6 => [.val (-97/100), .val (-43/100), .val 0, .val (43/100), .val (97/100), .posInf]
  | 7 => [.val (-107/100), .val (-57/100), .val (-18/100), .val (18/100),
          .val (57/100), .val (107/100), .posInf]
  | 8 => [.val (-115/100), .val (-67/100), .val (-32/100), .val 0, .val (32/100),
          .val (67/100), .val (115/100), .posInf]
  | 9 => [.val (-122/100), .val (-76/100), .val (-43/100), .val (-14/100), .val (14/100),
          .val (43/100), .val (76/100), .val (122/100), .posInf]
  | 10 => [.val (-128/100), .val (-84/100), .val (-52/100), .val (-25/100), .val 0,
           .val (25/100), .val (52/100), .val (84/100), .val (128/100), .posInf]
  | _ => []

/-- Helper for ceilLog2, structurally recursive on a fuel argument so that
it evaluates inside the kernel. -/
def ceilLog2Aux : ℕ → ℕ → ℕ
  | 0, _ => 0
  | fuel + 1, a => if a ≤ 1 then 0 else ceilLog2Aux fuel ((a + 1) / 2) + 1

/-- Model of math.ceil(math.log2 a) for positive integers a, the
letter_bits computation of SAX_FAST._transform (line 125). -/
def ceilLog2 (a : ℕ) : ℕ :=
  ceilLog2Aux a a

/-- Population mean of a list of rationals (scipy zscore uses ddof=0). -/
def listMean (l : List ℚ) : ℚ :=
  l.sum / l.length

/-- Population variance of a list of rationals. -/
def listVar (l : List ℚ) : ℚ :=
  ((l.map (fun x => (x - listMean l) ^ 2)).sum) / l.length

/-- Model of scipy.stats.zscore(window, ddof=0) in the scaled
representation: the result is the list of numerators x - mean together
with the variance (the square of the common denominator).  A zero-variance
window means every numerator is zero, so every z-score is 0/0 = nan; the
returned variance 1 is then a dummy that no comparison consumes (breakLE
ignores it on nan). -/
def zscore_scaled (w : List ℚ) : List SVal × ℚ :=
  if listVar w = 0 then (w.map (fun _ => SVal.nan), 1)
  else (w.map (fun x => SVal.q (x - listMean w)), listVar w)

/-- Decision of the float comparison z <= b of _generate_words line 214,
where z is represented as u / sqrt(svar) with svar > 0.  NaN compares
false against everything, +infinity is above every finite value, and a
finite comparison u / sqrt(svar) <= b is decided by sign analysis and
squaring, which is exact.  An entry SVal.q u with u = 0 decides the same
way under every positive svar, which covers the PAA slots that were never
written (they hold the 0.0 of np.zeros, and 0 <= b iff 0 <= b regardless
of the scale). -/
def breakLE : SVal → ℚ → Bp → Bool
  | .nan, _, _ => false
  | .q _, _, .posInf => true
  | .q u, svar, .val b =>
    if 0 ≤ b then decide (u ≤ 0) || decide (u ^ 2 ≤ b ^ 2 * svar)
    else decide (u ≤ 0) && decide (b ^ 2 * svar ≤ u ^ 2)

/-- Index of the first breakpoint the value is below or equal to (the
inner loop with break of _generate_words lines 213-216); none when no
breakpoint is satisfied, which happens exactly for nan. -/
def symIdx (x : SVal) (svar : ℚ) (bps : List Bp) : Option ℕ :=
  bps.findIdx? (breakLE x svar)

/-- Model of SAX_FAST._generate_words (lines 208-218): walk the first
word_length pattern entries in time order; for each entry that satisfies
some breakpoint, shift the accumulator left by letter_bits and OR in the
breakpoint index; an entry that satisfies no breakpoint (nan) contributes
nothing.  The Python loop indexes pattern[i] for i < word_length; the
pattern produced by PAA always has exactly word_length entries, and the
take models the same access. -/
def generate_words (pattern : List SVal) (word_length : ℕ) (breakpoints : List Bp)
    (svar : ℚ) (letter_bits : ℕ) : ℕ :=
  (pattern.take word_length).foldl
    (fun word x =>
      match symIdx x svar breakpoints with
      | some bp => (word <<< letter_bits) ||| bp
      | none => word)
    0

/-- Specification-side packing of an explicit symbol-index sequence,
most-significant segment first, by the same shift-and-OR step that
_generate_words uses. -/
def packWord (syms : List ℕ) (letter_bits : ℕ) : ℕ :=
  syms.foldl (fun w s => (w <<< letter_bits) ||| s) 0

/-- Specification-side unpacking: right-shift and mask recovers the
symbols, first segment from the highest-order bits. -/
def unpackWord (w : ℕ) (len letter_bits : ℕ) : List ℕ :=
  (List.range len).map (fun i => (w >>> ((len - 1 - i) * letter_bits)) &&& (2 ^ letter_bits - 1))

/-- Loop state of the PAA inner loop of _perform_paa_along_dim: the index
of the frame being filled, the fractional number of samples consumed by
that frame, the running weighted sum, and the output row (np.zeros of
length num_intervals, written in place). -/
structure PaaState where
  currentFrame : ℕ
  currentFrameSize : ℚ
  frameSum : SVal
  data : List SVal
deriving DecidableEq, Repr

/-- Body of the n-loop of _perform_paa_along_dim (lines 172-186): consume
one sample, either wholly (remaining > 1) or up to the frame boundary
(weight remaining), and on exact frame completion emit frame_sum /
frame_length into the output row and carry the leftover 1 - remaining of
the sample into the next frame. -/
def paaStep (fl : ℚ) (s : PaaState) (x : SVal) : PaaState :=
  let remaining := fl - s.currentFrameSize
  let frameSum := if remaining > 1 then s.frameSum.add x else s.frameSum.add (x.mulQ remaining)
  let cfs := if remaining > 1 then s.currentFrameSize + 1 else s.currentFrameSize + remaining
  if cfs = fl then
    ⟨s.currentFrame + 1, 1 - remaining, x.mulQ (1 - remaining),
      s.data.set s.currentFrame (frameSum.divQ fl)⟩
  else
    ⟨s.currentFrame, cfs, frameSum, s.data⟩

/-- Model of one row of SAX_FAST._perform_paa_along_dim (lines 165-190):
fold the loop body over the series, then flush the final accumulated
value into the last slot when the loop terminated one segment short (the
current_frame == num_intervals - 1 test, taken over ℤ because Python
subtraction does not truncate at zero). -/
def perform_paa (series : List SVal) (num_intervals : ℕ) : List SVal :=
  let num_atts := series.length
  let fl : ℚ := (num_atts : ℚ) / (num_intervals : ℚ)
  let s := series.foldl (paaStep fl) ⟨0, 0, .q 0, List.replicate num_intervals (SVal.q 0)⟩
  if (s.currentFrame : ℤ) = (num_intervals : ℤ) - 1 then
    s.data.set s.currentFrame (s.frameSum.divQ fl)
  else
    s.data

/-- Model of SAX_FAST._perform_paa_along_dim on the whole window matrix:
the i-loop applies the row computation to every row independently. -/
def perform_paa_along_dim (X : List (List SVal)) (num_intervals : ℕ) : List (List SVal) :=
  X.map (fun series => perform_paa series num_intervals)

/-- Closed-form weight with which sample n contributes to PAA segment k:
the overlap of the sample interval [n, n+1) with the segment span
[k * fl, (k+1) * fl). -/
def paaWeight (fl : ℚ) (k n : ℕ) : ℚ :=
  max 0 (min ((k + 1) * fl) (n + 1) - max (k * fl) n)

/-- Closed-form value of PAA segment k of a window xs: the
frame-length-normalised weighted sum of its span of samples. -/
def segSpec (xs : List ℚ) (fl : ℚ) (k : ℕ) : ℚ :=
  (∑ n ∈ Finset.range xs.length, paaWeight fl k n * xs.getD n 0) / fl

/-- Model of the j-loop of SAX_FAST._remove_repeating_words (lines
197-204): last_word starts at 0 and tracks the value just written, so a
word equal to the previously written value is replaced by 0 and the
tracker then holds 0. -/
def remove_repeating_row : ℕ → List ℕ → List ℕ
  | _, [] => []
  | last_word, w :: ws =>
    let w2 := if last_word = w then 0 else w
    w2 :: remove_repeating_row w2 ws

/-- Model of SAX_FAST._remove_repeating_words: the row pass applied to
every instance row independently. -/
def remove_repeating_words (words : List (List ℕ)) : List (List ℕ) :=
  words.map (remove_repeating_row 0)

/-- Length of the first row of a list-of-lists matrix, the second
component of numpy shape for the rectangular arrays the transform
consumes. -/
def headLength {α : Type} (X : List (List α)) : ℕ :=
  X.head?.elim 0 List.length

/-- Wrap-around of the int64 word values into uint32, the dtype=np.uint32
cast of csr_matrix on line 155. -/
def uint32cast (n : ℕ) : ℕ :=
  n % 2 ^ 32

/-- Nonzero entries of one matrix row after the uint32 cast, as
(column, value) pairs in column order: the per-row content of the
compressed sparse row format. -/
def rowNZ (row : List ℕ) : List (ℕ × ℕ) :=
  (row.map uint32cast).enum.filter (fun p => p.2 ≠ 0)

/-- Row-pointer array of the CSR format: entry i is the number of stored
entries of the rows before row i, entry rows is the total. -/
def indptrOf : List (List ℕ) → List ℕ
  | [] => [0]
  | r :: rs => 0 :: (indptrOf rs).map (fun t => (rowNZ r).length + t)

/-- Compressed sparse row matrix: the standard indptr/indices/data
arrays plus the dense shape. -/
structure CSR where
  rows : ℕ
  cols : ℕ
  indptr : List ℕ
  indices : List ℕ
  data : List ℕ
deriving DecidableEq, Repr

/-- Model of scipy.sparse.csr_matrix(all_words, dtype=np.uint32): cast
every entry to uint32 and store the nonzero entries of each row in order,
with the standard row-pointer array. -/
def csr_matrix (m : List (List ℕ)) : CSR :=
  ⟨m.length, headLength m, indptrOf m,
    (m.map (fun r => (rowNZ r).map Prod.fst)).flatten,
    (m.map (fun r => (rowNZ r).map Prod.snd)).flatten⟩

/-- Entry (i, j) of a CSR matrix: scan the stored columns of row i (the
slice [indptr i, indptr (i+1)) of indices/data) for column j; absent
columns are zero. -/
def csrGet (c : CSR) (i j : ℕ) : ℕ :=
  let lo := c.indptr.getD i 0
  let hi := c.indptr.getD (i + 1) 0
  match (((c.indices.take hi).drop lo).zip ((c.data.take hi).drop lo)).find?
      (fun p => p.1 = j) with
  | some p => p.2
  | none => 0

/-- Configuration of SAX_FAST, the constructor arguments (lines 79-95). -/
structure SAXConfig where
  word_length : ℕ
  alphabet_size : ℕ
  window_size : ℕ
  remove_repeat_words : Bool
  return_sparse : Bool
  save_words : Bool
  return_pandas_data_series : Bool
deriving DecidableEq, Repr

/-- Mutable state of a SAX_FAST instance that _transform touches: the
words attribute and letter_bits. -/
structure SAXState where
  words : List (List ℕ)
  letter_bits : ℕ
deriving DecidableEq, Repr

/-- Exceptions the modelled _transform can raise: the two RuntimeError
validations (lines 115-118) and the ValueError numpy raises when
np.zeros is given the negative window count (line 124). -/
inductive SAXError where
  | alphabetSize : SAXError
  | wordLength : SAXError
  | negativeDims : SAXError
deriving DecidableEq, Repr

/-- Result of _transform: a pandas frame of per-instance series, a sparse
CSR matrix, or the dense word matrix (lines 150-157).  All three carry
the same numeric content in different containers. -/
inductive SAXOutput where
  | pandas : List (List ℕ) → SAXOutput
  | sparse : CSR → SAXOutput
  | dense : List (List ℕ) → SAXOutput
deriving DecidableEq, Repr

/-- Sliding windows of one instance row: window w is the contiguous slice
of length window_size starting at offset w (the fancy-indexing split of
lines 128-134). -/
def windowsOf (row : List ℚ) (window_size numWin : ℕ) : List (List ℚ) :=
  (List.range numWin).map (fun w => (row.drop w).take window_size)

/-- Per-window word computation: z-normalise the window (scaled
representation), compress with PAA to word_length segments, and encode
through the breakpoint table (the body of the loops of lines 127-142
restricted to one window). -/
def wordOfWindow (alphabet_size word_length : ℕ) (win : List ℚ) : ℕ :=
  let z := zscore_scaled win
  let pattern := perform_paa z.1 word_length
  generate_words pattern word_length (generate_breakpoints alphabet_size) z.2
    (ceilLog2 alphabet_size)

/-- Word matrix all_words before numerosity reduction: one row per
instance, one column per window.  Every stage is row- and
window-independent, so the matrix loops of _transform factor into this
per-window map. -/
def allWordsOf (cfg : SAXConfig) (X : List (List ℚ)) : List (List ℕ) :=
  let numWin := headLength X + 1 - cfg.window_size
  X.map (fun row =>
    (windowsOf row cfg.window_size numWin).map
      (fun win => wordOfWindow cfg.alphabet_size cfg.word_length win))

/-- Model of SAX_FAST._transform (lines 101-157) in the Python statement
order: validate alphabet_size, validate word_length, allocate the output
(np.zeros raises on a negative window count), assign self.letter_bits,
compute the word matrix, optionally suppress repeats, optionally save
self.words, and format the output.  The returned state is the state of
the instance after the call, unchanged when an exception is raised. -/
def sax_transform (cfg : SAXConfig) (st : SAXState) (X : List (List ℚ)) :
    Except SAXError SAXOutput × SAXState :=
  if cfg.alphabet_size < 2 ∨ 4 < cfg.alphabet_size then (.error .alphabetSize, st)
  else if cfg.word_length < 1 ∨ 16 < cfg.word_length then (.error .wordLength, st)
  else if (headLength X : ℤ) - cfg.window_size + 1 < 0 then (.error .negativeDims, st)
  else
    let lb := ceilLog2 cfg.alphabet_size
    let st1 : SAXState := ⟨st.words, lb⟩
    let aw0 := allWordsOf cfg X
    let aw := if cfg.remove_repeat_words then remove_repeating_words aw0 else aw0
    let st2 : SAXState := if cfg.save_words then ⟨aw, lb⟩ else st1
    if cfg.return_pandas_data_series then (.ok (.pandas aw), st2)
    else if cfg.return_sparse then (.ok (.sparse (csr_matrix aw)), st2)
    else (.ok (.dense aw), st2)

/-! ### Bit-level helper lemmas for the shift-and-OR packing step -/

/-- Packing step as plain arithmetic: when the OR-ed symbol fits in
letter_bits bits, shift-and-OR is multiplication and addition. -/
theorem shiftLeft_lor_eq_add (w b lb : ℕ) (hb : b < 2 ^ lb) :
    w <<< lb ||| b = w * 2 ^ lb + b := by
  apply Nat.eq_of_testBit_eq
  intro i
  rw [Nat.testBit_lor, Nat.testBit_shiftLeft]
  by_cases h : i < lb
  · have h1 : (w * 2 ^ lb + b) % 2 ^ lb = b := by
      rw [Nat.mul_comm, Nat.mul_add_mod, Nat.mod_eq_of_lt hb]
    have h2 := Nat.testBit_mod_two_pow (w * 2 ^ lb + b) lb i
    rw [h1] at h2
    simp [h2, h, Nat.not_le.mpr h]
  · have hb2 : b.testBit i = false :=
      Nat.testBit_eq_false_of_lt
        (lt_of_lt_of_le hb (Nat.pow_le_pow_right (by norm_num) (Nat.not_lt.mp h)))
    have h3 : (w * 2 ^ lb + b) / 2 ^ lb = w := by
      rw [Nat.mul_comm, Nat.mul_add_div (Nat.two_pow_pos lb), Nat.div_eq_of_lt hb,
        Nat.add_zero]
    have h4 : (w * 2 ^ lb + b).testBit i = w.testBit (i - lb) := by
      have h5 := Nat.testBit_shiftRight (i := lb) (j := i - lb) (w * 2 ^ lb + b)
      rw [Nat.shiftRight_eq_div_pow, h3] at h5
      rw [h5]
      congr 1
      omega
    simp [h4, hb2, Nat.not_lt.mp h]

/-- Packing step keeps the accumulator below the bit budget. -/
theorem shiftLeft_lor_lt (w b lb k : ℕ) (hw : w < 2 ^ k) (hb : b < 2 ^ lb) :
    w <<< lb ||| b < 2 ^ (k + lb) := by
  rw [shiftLeft_lor_eq_add w b lb hb]
  calc w * 2 ^ lb + b < w * 2 ^ lb + 2 ^ lb := by omega
    _ = (w + 1) * 2 ^ lb := by ring
    _ ≤ 2 ^ k * 2 ^ lb := Nat.mul_le_mul_right _ hw
    _ = 2 ^ (k + lb) := (pow_add 2 k lb).symm

/-- Quotient of the packing step: the right shift recovers the previous
accumulator. -/
theorem shiftLeft_lor_shiftRight (w b lb : ℕ) (hb : b < 2 ^ lb) :
    (w <<< lb ||| b) >>> lb = w := by
  rw [shiftLeft_lor_eq_add w b lb hb, Nat.shiftRight_eq_div_pow, Nat.mul_comm,
    Nat.mul_add_div (Nat.two_pow_pos lb), Nat.div_eq_of_lt hb, Nat.add_zero]

/-- Remainder of the packing step: the mask recovers the last symbol. -/
theorem shiftLeft_lor_mask (w b lb : ℕ) (hb : b < 2 ^ lb) :
    (w <<< lb ||| b) &&& (2 ^ lb - 1) = b := by
  rw [shiftLeft_lor_eq_add w b lb hb, Nat.and_pow_two_sub_one_eq_mod, Nat.mul_comm,
    Nat.mul_add_mod, Nat.mod_eq_of_lt hb]

/-- Result index of a successful findIdx? scan started at s lies below
s plus the list length. -/
theorem findIdx?_some_lt {α : Type} (p : α → Bool) :
    ∀ (l : List α) (s i : ℕ), List.findIdx? p l s = some i → i < s + l.length
  | [], s, i, h => by simp [List.findIdx?_nil] at h
  | x :: xs, s, i, h => by
    rw [List.findIdx?_cons] at h
    by_cases hp : p x = true
    · rw [if_pos hp] at h
      have hsi : s = i := by simpa using h
      simp only [List.length_cons]
      omega
    · rw [if_neg hp] at h
      have := findIdx?_some_lt p xs (s + 1) i h
      simp only [List.length_cons]
      omega

/-- Symbol indices produced by the breakpoint scan are below the table
length. -/
theorem symIdx_lt (x : SVal) (svar : ℚ) (bps : List Bp) (i : ℕ)
    (h : symIdx x svar bps = some i) : i < bps.length := by
  have := findIdx?_some_lt (breakLE x svar) bps 0 i h
  omega

/-- The breakpoint scan never yields a symbol for nan: nan compares false
against every breakpoint, the +infinity sentinel included. -/
theorem symIdx_nan (svar : ℚ) (bps : List Bp) : symIdx SVal.nan svar bps = none := by
  rw [symIdx, List.findIdx?_eq_none_iff]
  intro b _
  rfl

/-- Soundness of the scaled breakpoint comparison: for a positive
variance, breakLE on the numerator u decides exactly the real-number
comparison u / sqrt(svar) <= b that the float code performs on the
z-scored value. -/
theorem breakLE_correct (u svar b : ℚ) (hv : 0 < svar) :
    breakLE (SVal.q u) svar (Bp.val b) = true ↔
      ((u : ℝ) / Real.sqrt (svar : ℝ) ≤ (b : ℝ)) := by
  have hvr : (0 : ℝ) < (svar : ℝ) := by exact_mod_cast hv
  have hs0 : (0 : ℝ) < Real.sqrt (svar : ℝ) := Real.sqrt_pos.mpr hvr
  have hs2 : Real.sqrt (svar : ℝ) ^ 2 = (svar : ℝ) := Real.sq_sqrt hvr.le
  rw [div_le_iff₀ hs0]
  simp only [breakLE]
  by_cases hb : 0 ≤ b
  · rw [if_pos hb]
    simp only [Bool.or_eq_true, decide_eq_true_eq]
    have hbr : (0 : ℝ) ≤ (b : ℝ) := by exact_mod_cast hb
    constructor
    · rintro (h | h)
      · have hur : (u : ℝ) ≤ 0 := by exact_mod_cast h
        nlinarith [mul_nonneg hbr hs0.le]
      · have hr : (u : ℝ) ^ 2 ≤ (b : ℝ) ^ 2 * (svar : ℝ) := by exact_mod_cast h
        nlinarith [hs2, mul_nonneg hbr hs0.le, sq_nonneg ((u : ℝ) - b * Real.sqrt svar),
          sq_nonneg ((u : ℝ) + b * Real.sqrt svar)]
    · intro h
      by_cases hu : u ≤ 0
      · exact Or.inl hu
      · right
        have hur : (0 : ℝ) < (u : ℝ) := by exact_mod_cast not_le.mp hu
        have hr : (u : ℝ) ^ 2 ≤ (b : ℝ) ^ 2 * (svar : ℝ) := by
          nlinarith [hs2, mul_nonneg hbr hs0.le]
        exact_mod_cast hr
  · rw [if_neg hb]
    simp only [Bool.and_eq_true, decide_eq_true_eq]
    have hbr : (b : ℝ) < 0 := by exact_mod_cast not_le.mp hb
    constructor
    · rintro ⟨h1, h2⟩
      have h1r : (u : ℝ) ≤ 0 := by exact_mod_cast h1
      have h2r : (b : ℝ) ^ 2 * (svar : ℝ) ≤ (u : ℝ) ^ 2 := by exact_mod_cast h2
      nlinarith [hs2, sq_nonneg ((u : ℝ) - b * Real.sqrt svar),
        sq_nonneg ((u : ℝ) + b * Real.sqrt svar), mul_pos (neg_pos.mpr hbr) hs0]
    · intro h
      have hbs : (b : ℝ) * Real.sqrt svar < 0 := mul_neg_of_neg_of_pos hbr hs0
      have hu0 : (u : ℝ) ≤ 0 := by linarith
      refine ⟨by exact_mod_cast hu0, ?_⟩
      have hr : (b : ℝ) ^ 2 * (svar : ℝ) ≤ (u : ℝ) ^ 2 := by
        nlinarith [hs2, mul_pos (neg_pos.mpr hbr) hs0]
      exact_mod_cast hr

/-! ### Repeat-word suppression: row-level lemmas -/

/-- Length is preserved by the suppression pass. -/
theorem remove_repeating_row_length (last : ℕ) (l : List ℕ) :
    (remove_repeating_row last l).length = l.length := by
  induction l generalizing last with
  | nil => rfl
  | cons w ws ih => simp [remove_repeating_row, ih]

/-- Pointwise description of the suppression pass: entry j of the output
is zero exactly when input entry j equals the previously written output
entry (the initial tracker for j = 0), and is the input entry otherwise. -/
theorem remove_repeating_row_getD (last : ℕ) (l : List ℕ) :
    ∀ j, j < l.length →
      (remove_repeating_row last l).getD j 0 =
        if l.getD j 0 = (if j = 0 then last
            else (remove_repeating_row last l).getD (j - 1) 0)
          then 0 else l.getD j 0 := by
  induction l generalizing last with
  | nil => intro j hj; simp at hj
  | cons w ws ih =>
    intro j hj
    match j with
    | 0 =>
      by_cases h : last = w
      · simp [remove_repeating_row, h]
      · simp [remove_repeating_row, h, Ne.symm h]
    | 1 =>
      have h1 := ih (if last = w then 0 else w) 0
        (by simp only [List.length_cons] at hj; omega)
      simpa [remove_repeating_row] using h1
    | (j' + 2) =>
      have h1 := ih (if last = w then 0 else w) (j' + 1)
        (by simp only [List.length_cons] at hj; omega)
      simpa [remove_repeating_row] using h1

/-- Entries of the suppression output are the input entry or zero. -/
theorem remove_repeating_row_entry (last : ℕ) (l : List ℕ) (j : ℕ) :
    (remove_repeating_row last l).getD j 0 = l.getD j 0 ∨
      (remove_repeating_row last l).getD j 0 = 0 := by
  induction l generalizing last j with
  | nil => right; simp [remove_repeating_row]
  | cons w ws ih =>
    match j with
    | 0 =>
      by_cases h : last = w
      · right; simp [remove_repeating_row, h]
      · left; simp [remove_repeating_row, h]
    | (j' + 1) => simpa [remove_repeating_row] using ih (if last = w then 0 else w) j'

/-- One suppression pass is enough: running it again changes nothing. -/
theorem remove_repeating_row_idem (last : ℕ) (l : List ℕ) :
    remove_repeating_row last (remove_repeating_row last l) = remove_repeating_row last l := by
  induction l generalizing last with
  | nil => rfl
  | cons w ws ih =>
    by_cases h : last = w
    · simp [remove_repeating_row, h, ih]
    · simp [remove_repeating_row, h, ih]

/-- After one suppression pass, adjacent equal entries are zero: no two
adjacent equal non-zero words remain. -/
theorem remove_repeating_row_adj (last : ℕ) (l : List ℕ) :
    ∀ j, j + 1 < l.length →
      (remove_repeating_row last l).getD j 0 = (remove_repeating_row last l).getD (j + 1) 0 →
      (remove_repeating_row last l).getD (j + 1) 0 = 0 := by
  induction l generalizing last with
  | nil => intro j hj; simp at hj
  | cons w ws ih =>
    intro j hj
    match j, ws with
    | 0, v :: vs =>
      intro heq
      by_cases h2 : (if last = w then 0 else w) = v
      · simp [remove_repeating_row, h2]
      · simp [remove_repeating_row, h2] at heq
    | (j' + 1), v :: vs =>
      intro heq
      have := ih (if last = w then 0 else w) j' (by simpa using hj)
      simp only [remove_repeating_row] at heq ⊢
      simp only [List.getD_cons_succ] at heq ⊢
      exact this heq

/-- Row i of the suppressed matrix is the suppression pass over row i of
the input, for an in-range row index. -/
theorem remove_repeating_words_getD (m : List (List ℕ)) (i : ℕ) (hi : i < m.length) :
    (remove_repeating_words m).getD i [] = remove_repeating_row 0 (m.getD i []) := by
  simp only [remove_repeating_words]
  rw [List.getD_eq_getElem?_getD, List.getElem?_map, List.getElem?_eq_getElem hi]
  simp [List.getD_eq_getElem?_getD, List.getElem?_eq_getElem hi]

/-! ### Claim C3: what repeat-word suppression does to a row -/

/-- Claim C3 counterexample: the claim predicts that in a row [w, w, w]
with w nonzero both the second and the third entry become 0, so it
predicts [[5, 5, 5]] becomes [[5, 0, 5... the code actually yields
[[5, 0, 5]], whose third entry is 5, not 0: the tracker holds the written
0 after a suppression, so the third 5 no longer matches it. -/
theorem C3_counterexample :
    remove_repeating_words [[5, 5, 5]] = [[5, 0, 5]] ∧
      ((remove_repeating_words [[5, 5, 5]]).getD 0 []).getD 2 0 ≠ 0 := by
  decide

/-- Claim C3, amended: suppression replaces entry j by 0 exactly when it
equals the previously written output entry (the tracker starts at 0 and
is updated to the written value), and leaves every other entry unchanged;
consequently a row [w, w, w] with w nonzero becomes [w, 0, w]: the second
entry is zeroed, the third is kept. -/
theorem C3_remove_repeating_amended (m : List (List ℕ)) :
    (remove_repeating_words m).length = m.length ∧
    (∀ i, i < m.length →
      ((remove_repeating_words m).getD i []).length = (m.getD i []).length ∧
      ∀ j, j < (m.getD i []).length →
        ((remove_repeating_words m).getD i []).getD j 0 =
          if (m.getD i []).getD j 0 =
              (if j = 0 then 0
                else ((remove_repeating_words m).getD i []).getD (j - 1) 0)
            then 0 else (m.getD i []).getD j 0) ∧
    (∀ w : ℕ, w ≠ 0 → remove_repeating_row 0 [w, w, w] = [w, 0, w]) := by
  refine ⟨by simp [remove_repeating_words], ?_, ?_⟩
  · intro i hi
    rw [remove_repeating_words_getD m i hi]
    exact ⟨remove_repeating_row_length 0 _, remove_repeating_row_getD 0 _⟩
  · intro w hw
    simp [remove_repeating_row, hw, Ne.symm hw]

/-- Witness for the amended claim C3 at a concrete matrix. -/
theorem C3_remove_repeating_amended_witness :
    (remove_repeating_words [[7, 7, 7], [0, 3, 3]]).length = 2 ∧
    (∀ i, i < 2 →
      ((remove_repeating_words [[7, 7, 7], [0, 3, 3]]).getD i []).length =
        (([[7, 7, 7], [0, 3, 3]] : List (List ℕ)).getD i []).length ∧
      ∀ j, j < (([[7, 7, 7], [0, 3, 3]] : List (List ℕ)).getD i []).length →
        ((remove_repeating_words [[7, 7, 7], [0, 3, 3]]).getD i []).getD j 0 =
          if (([[7, 7, 7], [0, 3, 3]] : List (List ℕ)).getD i []).getD j 0 =
              (if j = 0 then 0
                else ((remove_repeating_words [[7, 7, 7], [0, 3, 3]]).getD i []).getD (j - 1) 0)
            then 0 else (([[7, 7, 7], [0, 3, 3]] : List (List ℕ)).getD i []).getD j 0) ∧
    (∀ w : ℕ, w ≠ 0 → remove_repeating_row 0 [w, w, w] = [w, 0, w]) := by
  have h := C3_remove_repeating_amended [[7, 7, 7], [0, 3, 3]]
  simpa using h

/-! ### Claim C8: idempotence of repeat-word suppression -/

/-- Claim C8: repeat-word suppression is idempotent, and after one pass no
row contains two adjacent equal non-zero words. -/
theorem C8_suppression_idempotent (m : List (List ℕ)) :
    remove_repeating_words (remove_repeating_words m) = remove_repeating_words m ∧
    ∀ i j, j + 1 < ((remove_repeating_words m).getD i []).length →
      ((remove_repeating_words m).getD i []).getD j 0 =
        ((remove_repeating_words m).getD i []).getD (j + 1) 0 →
      ((remove_repeating_words m).getD i []).getD (j + 1) 0 = 0 := by
  constructor
  · simp only [remove_repeating_words, List.map_map]
    apply List.map_congr_left
    intro row _
    exact remove_repeating_row_idem 0 row
  · intro i j hj heq
    by_cases hi : i < m.length
    · rw [remove_repeating_words_getD m i hi] at hj heq ⊢
      exact remove_repeating_row_adj 0 (m.getD i []) j
        (by rwa [remove_repeating_row_length] at hj) heq
    · have hnil : (remove_repeating_words m).getD i [] = [] := by
        apply List.getD_eq_default
        simp only [remove_repeating_words, List.length_map]
        omega
      rw [hnil] at hj
      simp at hj

/-! ### ceilLog2 agrees with the ceiling logarithm -/

/-- Fuel irrelevance for ceilLog2Aux: any fuel at least the argument
computes the same value. -/
theorem ceilLog2Aux_fuel (f1 : ℕ) : ∀ (f2 a : ℕ), a ≤ f1 → a ≤ f2 →
    ceilLog2Aux f1 a = ceilLog2Aux f2 a := by
  induction f1 with
  | zero =>
    intro f2 a h1 _
    interval_cases a
    cases f2 with
    | zero => rfl
    | succ k => simp [ceilLog2Aux]
  | succ f1 ih =>
    intro f2 a h1 h2
    cases f2 with
    | zero =>
      interval_cases a
      simp [ceilLog2Aux]
    | succ k =>
      by_cases ha : a ≤ 1
      · simp [ceilLog2Aux, ha]
      · simp only [ceilLog2Aux, if_neg ha]
        have := ih k ((a + 1) / 2) (by omega) (by omega)
        omega

/-- Recurrence of ceilLog2 above 1: halve (rounding up) and add one. -/
theorem ceilLog2_step (n : ℕ) : ceilLog2 (n + 2) = ceilLog2 ((n + 3) / 2) + 1 := by
  show (if n + 2 ≤ 1 then 0 else ceilLog2Aux (n + 1) ((n + 2 + 1) / 2) + 1) = _
  rw [if_neg (by omega)]
  congr 1
  rw [ceilLog2]
  exact ceilLog2Aux_fuel (n + 1) ((n + 3) / 2) ((n + 2 + 1) / 2) (by omega) (by omega)

/-- The fuel-based ceilLog2 is the ceiling base-2 logarithm. -/
theorem ceilLog2_eq_clog (a : ℕ) : ceilLog2 a = Nat.clog 2 a := by
  induction a using Nat.strong_induction_on with
  | _ a ih =>
    match a with
    | 0 => simp [ceilLog2, ceilLog2Aux, Nat.clog_zero_right]
    | 1 => simp [ceilLog2, ceilLog2Aux, Nat.clog_one_right]
    | (n + 2) =>
      rw [ceilLog2_step, Nat.clog_of_two_le (by norm_num) (by omega : 2 ≤ n + 2),
        ih ((n + 3) / 2) (by omega)]
      congr 2

/-- Every positive a fits below 2 to its ceilLog2, and alphabets in [2,4]
fit exactly into their letter_bits budget. -/
theorem le_two_pow_ceilLog2 (a : ℕ) : a ≤ 2 ^ ceilLog2 a := by
  rcases Nat.eq_zero_or_pos a with h | h
  · simp [h]
  · rw [ceilLog2_eq_clog]
    exact Nat.le_pow_clog (by norm_num) a

/-! ### Packing and unpacking of symbol sequences (claim C7) -/

/-- Packing a sequence extended by one symbol is one shift-and-OR step on
the packing of the prefix. -/
theorem packWord_append (syms : List ℕ) (s lb : ℕ) :
    packWord (syms ++ [s]) lb = (packWord syms lb) <<< lb ||| s := by
  simp [packWord, List.foldl_append]

/-- Packed words stay below the bit budget letter_bits times the number of
symbols. -/
theorem packWord_lt (lb : ℕ) (syms : List ℕ) (h : ∀ s ∈ syms, s < 2 ^ lb) :
    packWord syms lb < 2 ^ (lb * syms.length) := by
  induction syms using List.reverseRecOn with
  | nil => simp [packWord]
  | append_singleton l a ih =>
    rw [packWord_append]
    have ha : a < 2 ^ lb := h a (by simp)
    have hl : packWord l lb < 2 ^ (lb * l.length) := ih (fun s hs => h s (by simp [hs]))
    have := shiftLeft_lor_lt (packWord l lb) a lb (lb * l.length) hl ha
    calc packWord l lb <<< lb ||| a < 2 ^ (lb * l.length + lb) := this
      _ = 2 ^ (lb * (l ++ [a]).length) := by
        congr 1
        simp [Nat.mul_add]

/-- Unpacking inverts packing for symbol sequences that fit in letter_bits
bits per symbol. -/
theorem unpackWord_packWord (lb : ℕ) (syms : List ℕ) (h : ∀ s ∈ syms, s < 2 ^ lb) :
    unpackWord (packWord syms lb) syms.length lb = syms := by
  induction syms using List.reverseRecOn with
  | nil => simp [unpackWord, packWord]
  | append_singleton l a ih =>
    have ha : a < 2 ^ lb := h a (by simp)
    have hl : ∀ s ∈ l, s < 2 ^ lb := fun s hs => h s (by simp [hs])
    rw [packWord_append]
    simp only [unpackWord, List.length_append, List.length_singleton, List.range_succ,
      List.map_append] at ih ⊢
    congr 1
    · refine Eq.trans ?_ (ih hl)
      apply List.map_congr_left
      intro i hi
      have hi2 : i < l.length := List.mem_range.mp hi
      have e1 : (l.length + 1 - 1 - i) * lb = lb + (l.length - 1 - i) * lb := by
        rw [show l.length + 1 - 1 - i = (l.length - 1 - i) + 1 by omega]
        ring
      rw [e1, Nat.shiftRight_add, shiftLeft_lor_shiftRight _ _ _ ha]
    · simp only [List.map_cons, List.map_nil]
      rw [show l.length + 1 - 1 - l.length = 0 by omega]
      rw [Nat.zero_mul, Nat.shiftRight_zero, shiftLeft_lor_mask _ _ _ ha]

/-- Claim C7: packing word_length symbol indices, each below
alphabet_size, by shift-and-OR with letter_bits = ceil(log2 alphabet_size)
is inverted by right-shift-and-mask unpacking, and is therefore injective
on symbol sequences of a common length. -/
theorem C7_pack_roundtrip (a lb : ℕ) (syms : List ℕ)
    (hlb : lb = ceilLog2 a) (hs : ∀ s ∈ syms, s < a) :
    unpackWord (packWord syms lb) syms.length lb = syms ∧
    ∀ syms2 : List ℕ, syms2.length = syms.length → (∀ s ∈ syms2, s < a) →
      packWord syms2 lb = packWord syms lb → syms2 = syms := by
  have hfit : ∀ s ∈ syms, s < 2 ^ lb := fun s hmem =>
    lt_of_lt_of_le (hs s hmem) (hlb ▸ le_two_pow_ceilLog2 a)
  refine ⟨unpackWord_packWord lb syms hfit, ?_⟩
  intro syms2 hlen hs2 hpack
  have hfit2 : ∀ s ∈ syms2, s < 2 ^ lb := fun s hmem =>
    lt_of_lt_of_le (hs2 s hmem) (hlb ▸ le_two_pow_ceilLog2 a)
  calc syms2 = unpackWord (packWord syms2 lb) syms2.length lb :=
        (unpackWord_packWord lb syms2 hfit2).symm
    _ = unpackWord (packWord syms lb) syms.length lb := by rw [hpack, hlen]
    _ = syms := unpackWord_packWord lb syms hfit

/-- Witness for claim C7 at the concrete symbol sequence [1, 3, 0, 2]
with alphabet_size 4 and letter_bits 2. -/
theorem C7_pack_roundtrip_witness :
    unpackWord (packWord [1, 3, 0, 2] 2) 4 2 = [1, 3, 0, 2] :=
  (C7_pack_roundtrip 4 2 [1, 3, 0, 2] rfl (by decide)).1

/-! ### Claim C10: nan segments emit no symbol at all -/

/-- Folding the word-encoding step over a list equals folding the packing
step over the symbols that the breakpoint scan actually produces. -/
theorem generate_words_fold_eq (bps : List Bp) (svar : ℚ) (lb : ℕ) :
    ∀ (ys : List SVal) (w : ℕ),
      ys.foldl (fun word x => match symIdx x svar bps with
        | some bp => (word <<< lb) ||| bp
        | none => word) w =
      (ys.filterMap (fun x => symIdx x svar bps)).foldl (fun w2 s => (w2 <<< lb) ||| s) w
  | [], _ => rfl
  | y :: ys, w => by
    cases h : symIdx y svar bps with
    | none =>
      simp only [List.foldl_cons, List.filterMap_cons, h]
      exact generate_words_fold_eq bps svar lb ys w
    | some b =>
      simp only [List.foldl_cons, List.filterMap_cons, h]
      exact generate_words_fold_eq bps svar lb ys ((w <<< lb) ||| b)

/-- The word encoder output is the packing of the symbols of the scanned
entries, in time order, skipping entries that satisfy no breakpoint. -/
theorem generate_words_eq_pack (pattern : List SVal) (word_length : ℕ) (bps : List Bp)
    (svar : ℚ) (lb : ℕ) :
    generate_words pattern word_length bps svar lb =
      packWord ((pattern.take word_length).filterMap (fun x => symIdx x svar bps)) lb := by
  rw [generate_words, packWord]
  exact generate_words_fold_eq bps svar lb (pattern.take word_length) 0

/-- A finite value always receives a symbol when the table ends in the
+infinity sentinel. -/
theorem symIdx_q_ne_none (u : ℚ) (svar : ℚ) (bps : List Bp) (hbps : Bp.posInf ∈ bps) :
    symIdx (SVal.q u) svar bps ≠ none := by
  intro h
  rw [symIdx, List.findIdx?_eq_none_iff] at h
  have := h Bp.posInf hbps
  simp [breakLE] at this

/-- Bound on the word encoder output: below 2 to letter_bits times
word_length whenever the table length fits in letter_bits bits. -/
theorem generate_words_lt (pattern : List SVal) (word_length : ℕ) (bps : List Bp)
    (svar : ℚ) (lb : ℕ) (hbps : bps.length ≤ 2 ^ lb) :
    generate_words pattern word_length bps svar lb < 2 ^ (lb * word_length) := by
  rw [generate_words_eq_pack]
  have hsym : ∀ s ∈ (pattern.take word_length).filterMap (fun x => symIdx x svar bps),
      s < 2 ^ lb := by
    intro s hmem
    rcases List.mem_filterMap.mp hmem with ⟨x, _, hx⟩
    exact lt_of_lt_of_le (symIdx_lt x svar bps s hx) hbps
  have hlt := packWord_lt lb _ hsym
  have hlen : ((pattern.take word_length).filterMap
      (fun x => symIdx x svar bps)).length ≤ word_length :=
    le_trans (List.length_filterMap_le _ _) (List.length_take_le word_length pattern)
  exact lt_of_lt_of_le hlt (Nat.pow_le_pow_right (by norm_num) (Nat.mul_le_mul_left lb hlen))

/-- Claim C10: a nan segment satisfies no breakpoint, not even the
+infinity sentinel, so the encoder emits no symbol for it and the word is
the packing of the non-nan segments' symbols only; distinct patterns can
therefore collide, as the two concrete patterns show (a nan followed by a
high segment packs to 3, exactly as a low segment followed by the same
high segment). -/
theorem C10_nan_emits_no_symbol (pattern : List SVal) (word_length : ℕ) (bps : List Bp)
    (svar : ℚ) (lb : ℕ) :
    generate_words pattern word_length bps svar lb =
      packWord ((pattern.take word_length).filterMap (fun x => symIdx x svar bps)) lb ∧
    (∀ svar2 : ℚ, symIdx SVal.nan svar2 bps = none) ∧
    (generate_words [SVal.nan, SVal.q 1] 2 (generate_breakpoints 4) 1 2 = 3 ∧
      generate_words [SVal.q (-1), SVal.q 1] 2 (generate_breakpoints 4) 1 2 = 3 ∧
      ([SVal.nan, SVal.q 1] : List SVal) ≠ [SVal.q (-1), SVal.q 1] ∧
      (3 : ℕ) < 2 ^ (2 * 2 - 1)) := by
  refine ⟨generate_words_eq_pack pattern word_length bps svar lb,
    fun svar2 => symIdx_nan svar2 bps, ?_, ?_, by decide, by norm_num⟩
  · norm_num [generate_words, symIdx, breakLE, generate_breakpoints]
  · norm_num [generate_words, symIdx, breakLE, generate_breakpoints]

/-! ### Claim C2: range of emitted word values -/

/-- Generic entry bound for a list-of-lists matrix through getD. -/
theorem matrix_getD_lt (m : List (List ℕ)) (B : ℕ) (hB : 0 < B)
    (h : ∀ row ∈ m, ∀ v ∈ row, v < B) (i j : ℕ) : (m.getD i []).getD j 0 < B := by
  by_cases hi : i < m.length
  · have h1 : m.getD i [] = m[i] := List.getD_eq_getElem m [] hi
    have hrow : m[i] ∈ m := List.getElem_mem hi
    by_cases hj : j < (m.getD i []).length
    · have h2 : (m.getD i []).getD j 0 = (m.getD i [])[j] :=
        List.getD_eq_getElem (m.getD i []) 0 hj
      rw [h2]
      apply h m[i] hrow
      rw [← h1]
      exact List.getElem_mem hj
    · rw [List.getD_eq_default _ _ (Nat.not_lt.mp hj)]
      exact hB
  · rw [List.getD_eq_default m [] (Nat.not_lt.mp hi), List.getD_nil]
    exact hB

/-- Every entry of the word matrix is a word-encoder output, hence lies
below the letter_bits times word_length bit budget. -/
theorem allWordsOf_entry_lt (cfg : SAXConfig) (X : List (List ℚ))
    (hbps : (generate_breakpoints cfg.alphabet_size).length ≤ 2 ^ ceilLog2 cfg.alphabet_size)
    (i j : ℕ) :
    ((allWordsOf cfg X).getD i []).getD j 0 <
      2 ^ (ceilLog2 cfg.alphabet_size * cfg.word_length) := by
  apply matrix_getD_lt _ _ (Nat.two_pow_pos _)
  intro row hrow v hv
  simp only [allWordsOf, List.mem_map] at hrow
  rcases hrow with ⟨r, _, hr⟩
  rcases List.mem_map.mp (hr ▸ hv) with ⟨win, _, hwin⟩
  rw [← hwin, wordOfWindow]
  exact generate_words_lt _ _ _ _ _ hbps

/-- The breakpoint table of a valid alphabet fits into letter_bits bits. -/
theorem breakpoints_length_le (a : ℕ) (h2 : 2 ≤ a) (h4 : a ≤ 4) :
    (generate_breakpoints a).length ≤ 2 ^ ceilLog2 a := by
  interval_cases a <;> decide

/-- Claim C2 counterexample: with alphabet_size 3 (valid, inside [2,4]),
word_length 4, window_size 4, the one window of the instance [2,2,0,0]
z-normalises to [1,1,-1,-1] exactly, PAA is the identity, the symbols are
(2,2,0,0) packed 2 bits each, and the emitted word is 160, which is not
below alphabet_size to the word_length, 81. -/
theorem C2_counterexample :
    allWordsOf ⟨4, 3, 4, false, false, false, false⟩ [[2, 2, 0, 0]] = [[160]] ∧
    sax_transform ⟨4, 3, 4, false, false, false, false⟩ ⟨[], 0⟩ [[2, 2, 0, 0]] =
      (Except.ok (SAXOutput.dense [[160]]), ⟨[], 2⟩) ∧
    3 ^ 4 ≤ 160 := by
  have hz : zscore_scaled [2, 2, 0, 0] =
      ([SVal.q 1, SVal.q 1, SVal.q (-1), SVal.q (-1)], 1) := by
    norm_num [zscore_scaled, listVar, listMean]
  have hp : perform_paa [SVal.q 1, SVal.q 1, SVal.q (-1), SVal.q (-1)] 4 =
      [SVal.q 1, SVal.q 1, SVal.q (-1), SVal.q (-1)] := by
    norm_num [perform_paa, paaStep, SVal.add, SVal.mulQ, SVal.divQ, List.replicate, List.set]
  have hg : generate_words [SVal.q 1, SVal.q 1, SVal.q (-1), SVal.q (-1)] 4
      (generate_breakpoints 3) 1 2 = 160 := by
    norm_num [generate_words, symIdx, breakLE, generate_breakpoints]
    decide
  have haw : allWordsOf ⟨4, 3, 4, false, false, false, false⟩ [[2, 2, 0, 0]] = [[160]] := by
    norm_num [allWordsOf, headLength, windowsOf, wordOfWindow, List.range_succ,
      show ceilLog2 3 = 2 from rfl, hz, hp, hg]
  refine ⟨haw, ?_, by norm_num⟩
  norm_num [sax_transform, headLength, haw, show ceilLog2 3 = 2 from rfl]

/-- Claim C2, amended: every entry of the word matrix, before and after
repeat suppression, lies in the interval from 0 (inclusive) to 2 to the
power letter_bits times word_length (exclusive); that power equals
alphabet_size to the word_length for alphabet_size 2 and 4, but exceeds
it for alphabet_size 3, where words up to 4 to the word_length minus
padding occur. -/
theorem C2_word_range_amended (cfg : SAXConfig) (X : List (List ℚ))
    (ha : 2 ≤ cfg.alphabet_size) (ha2 : cfg.alphabet_size ≤ 4)
    (hwl : 1 ≤ cfg.word_length) (hwl2 : cfg.word_length ≤ 16) :
    (∀ i j, ((allWordsOf cfg X).getD i []).getD j 0 <
        2 ^ (ceilLog2 cfg.alphabet_size * cfg.word_length)) ∧
    (∀ i j, ((remove_repeating_words (allWordsOf cfg X)).getD i []).getD j 0 <
        2 ^ (ceilLog2 cfg.alphabet_size * cfg.word_length)) ∧
    ((cfg.alphabet_size = 2 ∨ cfg.alphabet_size = 4) →
      2 ^ (ceilLog2 cfg.alphabet_size * cfg.word_length) =
        cfg.alphabet_size ^ cfg.word_length) := by
  have hbps := breakpoints_length_le cfg.alphabet_size ha ha2
  refine ⟨fun i j => allWordsOf_entry_lt cfg X hbps i j, ?_, ?_⟩
  · intro i j
    by_cases hi : i < (allWordsOf cfg X).length
    · rw [remove_repeating_words_getD _ i hi]
      rcases remove_repeating_row_entry 0 ((allWordsOf cfg X).getD i []) j with h | h
      · rw [h]; exact allWordsOf_entry_lt cfg X hbps i j
      · rw [h]; exact Nat.two_pow_pos _
    · have hnil : (remove_repeating_words (allWordsOf cfg X)).getD i [] = [] :=
        List.getD_eq_default _ _ (by simp only [remove_repeating_words, List.length_map]; omega)
      rw [hnil, List.getD_nil]
      exact Nat.two_pow_pos _
  · rintro (h | h) <;> rw [h]
    · rw [show ceilLog2 2 = 1 from rfl, Nat.one_mul]
    · rw [show ceilLog2 4 = 2 from rfl, pow_mul]
      norm_num

/-- Witness for the amended claim C2 at the counterexample input itself. -/
theorem C2_word_range_amended_witness :
    (∀ i j, ((allWordsOf ⟨4, 3, 4, false, false, false, false⟩ [[2, 2, 0, 0]]).getD i []).getD j 0
        < 2 ^ (ceilLog2 3 * 4)) ∧
    (∀ i j, ((remove_repeating_words
          (allWordsOf ⟨4, 3, 4, false, false, false, false⟩ [[2, 2, 0, 0]])).getD i []).getD j 0
        < 2 ^ (ceilLog2 3 * 4)) ∧
    (((3 : ℕ) = 2 ∨ (3 : ℕ) = 4) → 2 ^ (ceilLog2 3 * 4) = 3 ^ 4) :=
  C2_word_range_amended ⟨4, 3, 4, false, false, false, false⟩ [[2, 2, 0, 0]]
    (by norm_num) (by norm_num) (by norm_num) (by norm_num)

/-! ### Claim C9: configuration validation aborts before any work -/

/-- Claim C9: an alphabet_size outside [2,4] or a word_length outside
[1,16] makes the transform raise for every input and every starting
state, and the stored state (words, letter_bits) is returned unchanged:
both validations run before the output allocation, before letter_bits is
assigned and before any word is computed. -/
theorem C9_validation_aborts (cfg : SAXConfig) (st : SAXState) (X : List (List ℚ))
    (h : cfg.alphabet_size < 2 ∨ 4 < cfg.alphabet_size ∨
      cfg.word_length < 1 ∨ 16 < cfg.word_length) :
    (∃ e : SAXError, sax_transform cfg st X = (Except.error e, st)) ∧
    (sax_transform cfg st X).2 = st := by
  by_cases ha : cfg.alphabet_size < 2 ∨ 4 < cfg.alphabet_size
  · constructor
    · exact ⟨SAXError.alphabetSize, by simp only [sax_transform]; rw [if_pos ha]⟩
    · simp only [sax_transform]
      rw [if_pos ha]
  · have hw : cfg.word_length < 1 ∨ 16 < cfg.word_length := by
      rcases h with h | h | h | h
      · exact absurd (Or.inl h) ha
      · exact absurd (Or.inr h) ha
      · exact Or.inl h
      · exact Or.inr h
    constructor
    · exact ⟨SAXError.wordLength, by simp only [sax_transform]; rw [if_neg ha, if_pos hw]⟩
    · simp only [sax_transform]
      rw [if_neg ha, if_pos hw]

/-- Witness for claim C9: alphabet_size 5 with a populated state. -/
theorem C9_validation_aborts_witness :
    (∃ e : SAXError,
      sax_transform ⟨8, 5, 12, false, true, false, false⟩ ⟨[[9]], 7⟩ [[1, 2]] =
        (Except.error e, ⟨[[9]], 7⟩)) ∧
    (sax_transform ⟨8, 5, 12, false, true, false, false⟩ ⟨[[9]], 7⟩ [[1, 2]]).2 =
      (⟨[[9]], 7⟩ : SAXState) :=
  C9_validation_aborts ⟨8, 5, 12, false, true, false, false⟩ ⟨[[9]], 7⟩ [[1, 2]]
    (by norm_num)

/-! ### Claim C5: behaviour when window_size exceeds series_length -/

/-- Claim C5 counterexample: window_size 4 on series length 3 (window
larger than the series) does not raise; numpy allocates a
zero-column matrix and the transform silently returns it. -/
theorem C5_counterexample :
    sax_transform ⟨2, 2, 4, false, false, false, false⟩ ⟨[], 0⟩ [[1, 2, 3]] =
      (Except.ok (SAXOutput.dense [[]]), ⟨[], 1⟩) ∧ 3 < 4 := by
  constructor
  · norm_num [sax_transform, headLength, allWordsOf, windowsOf,
      show ceilLog2 2 = 1 from rfl]
  · norm_num

/-- Claim C5, amended: with a valid alphabet_size and word_length,
window_size strictly greater than series_length + 1 raises the numpy
negative-dimension error, but window_size equal to series_length + 1
allocates a zero-column matrix (zero windows) and returns it silently
as a non-error output whose every row is empty. -/
theorem C5_window_size_amended (cfg : SAXConfig) (st : SAXState) (X : List (List ℚ))
    (ha : 2 ≤ cfg.alphabet_size) (ha2 : cfg.alphabet_size ≤ 4)
    (hwl : 1 ≤ cfg.word_length) (hwl2 : cfg.word_length ≤ 16) :
    (headLength X + 1 < cfg.window_size →
      sax_transform cfg st X = (Except.error SAXError.negativeDims, st)) ∧
    (cfg.window_size = headLength X + 1 →
      allWordsOf cfg X = X.map (fun _ => ([] : List ℕ)) ∧
      ∃ out, (sax_transform cfg st X).1 = Except.ok out) := by
  have hva : ¬(cfg.alphabet_size < 2 ∨ 4 < cfg.alphabet_size) := by omega
  have hvw : ¬(cfg.word_length < 1 ∨ 16 < cfg.word_length) := by omega
  constructor
  · intro h
    have hneg : (headLength X : ℤ) - cfg.window_size + 1 < 0 := by
      have := h
      omega
    simp only [sax_transform]
    rw [if_neg hva, if_neg hvw, if_pos hneg]
  · intro h
    have hzero : headLength X + 1 - cfg.window_size = 0 := by omega
    have haw : allWordsOf cfg X = X.map (fun _ => ([] : List ℕ)) := by
      simp [allWordsOf, hzero, windowsOf]
    refine ⟨haw, ?_⟩
    have hneg : ¬((headLength X : ℤ) - cfg.window_size + 1 < 0) := by omega
    simp only [sax_transform]
    rw [if_neg hva, if_neg hvw, if_neg hneg]
    by_cases hp : cfg.return_pandas_data_series = true
    · rw [if_pos hp]
      exact ⟨_, rfl⟩
    · rw [if_neg hp]
      by_cases hs : cfg.return_sparse = true
      · rw [if_pos hs]
        exact ⟨_, rfl⟩
      · rw [if_neg hs]
        exact ⟨_, rfl⟩

/-- Witness for the amended claim C5: the raising side at window_size 6
over series length 3, and the silent empty output at window_size 4 over
series length 3 (through the counterexample configuration family). -/
theorem C5_window_size_amended_witness :
    ((3 : ℕ) + 1 < 6 →
      sax_transform ⟨2, 2, 6, false, false, false, false⟩ ⟨[], 0⟩ [[1, 2, 3]] =
        (Except.error SAXError.negativeDims, ⟨[], 0⟩)) ∧
    ((6 : ℕ) = 3 + 1 →
      allWordsOf ⟨2, 2, 6, false, false, false, false⟩ [[1, 2, 3]] =
        ([[1, 2, 3]] : List (List ℚ)).map (fun _ => ([] : List ℕ)) ∧
      ∃ out, (sax_transform ⟨2, 2, 6, false, false, false, false⟩ ⟨[], 0⟩ [[1, 2, 3]]).1 =
        Except.ok out) := by
  have h := C5_window_size_amended ⟨2, 2, 6, false, false, false, false⟩ ⟨[], 0⟩ [[1, 2, 3]]
    (by norm_num) (by norm_num) (by norm_num) (by norm_num)
  simpa [headLength] using h

/-! ### CSR lookup: reading the sparse matrix reproduces the dense one -/

/-- Zipping the projections of a pair list reassembles the list. -/
theorem zip_map_fst_snd_eq {α β : Type} : ∀ (l : List (α × β)),
    (l.map Prod.fst).zip (l.map Prod.snd) = l
  | [] => rfl
  | p :: ps => by simp [zip_map_fst_snd_eq ps]

/-- Finding column k + j among the kept nonzero entries of an enumeration
started at k: present with the stored value exactly when entry j exists
and is nonzero. -/
theorem enumFrom_filter_find (l : List ℕ) : ∀ (k j : ℕ),
    ((List.enumFrom k l).filter (fun p => p.2 ≠ 0)).find? (fun p => p.1 = k + j) =
      if j < l.length ∧ l.getD j 0 ≠ 0 then some (k + j, l.getD j 0) else none := by
  induction l with
  | nil => intro k j; simp
  | cons x xs ih =>
    intro k j
    rw [List.enumFrom_cons]
    match j with
    | 0 =>
      by_cases hx : x = 0
      · have hnone : ((List.enumFrom (k + 1) xs).filter (fun p => p.2 ≠ 0)).find?
            (fun p => p.1 = k + 0) = none := by
          rw [List.find?_eq_none]
          intro p hp
          have hmem := List.mem_filter.mp hp
          have hge : k + 1 ≤ p.1 := by
            rcases p with ⟨pi, pv⟩
            exact (List.mem_enumFrom hmem.1).1
          simp only [decide_eq_true_eq]
          omega
        rw [List.filter_cons_of_neg (by simp [hx])]
        rw [hnone, if_neg (by simp [hx])]
      · simp [hx, List.find?_cons]
    | (j' + 1) =>
      have harith : ∀ p : ℕ × ℕ, (p.1 = k + (j' + 1)) = (p.1 = (k + 1) + j') := by
        intro p
        rw [show k + (j' + 1) = (k + 1) + j' by omega]
      by_cases hx : x = 0
      · rw [List.filter_cons_of_neg (by simp [hx])]
        simp only [harith]
        rw [ih (k + 1) j']
        simp [show (k + 1) + j' = k + (j' + 1) by omega]
      · rw [List.filter_cons_of_pos (by simp [hx])]
        rw [List.find?_cons]
        have hne : (decide ((k, x).1 = k + (j' + 1))) = false := by
          simp only [decide_eq_false_iff_not]
          omega
        rw [hne]
        simp only [harith]
        rw [ih (k + 1) j']
        simp [show (k + 1) + j' = k + (j' + 1) by omega]

/-- Cast then default commute: the uint32 cast of a getD at default 0. -/
theorem getD_map_uint32 (row : List ℕ) (j : ℕ) :
    (row.map uint32cast).getD j 0 = uint32cast (row.getD j 0) := by
  by_cases hj : j < row.length
  · rw [List.getD_eq_getElem _ _ (by simpa using hj), List.getD_eq_getElem _ _ hj,
      List.getElem_map]
  · rw [List.getD_eq_default _ _ (by simpa using Nat.not_lt.mp hj),
      List.getD_eq_default _ _ (Nat.not_lt.mp hj)]
    rfl

/-- Finding column j among the stored entries of one CSR row. -/
theorem rowNZ_find (row : List ℕ) (j : ℕ) :
    (rowNZ row).find? (fun p => p.1 = j) =
      if j < row.length ∧ uint32cast (row.getD j 0) ≠ 0
      then some (j, uint32cast (row.getD j 0)) else none := by
  have h := enumFrom_filter_find (row.map uint32cast) 0 j
  simp only [Nat.zero_add] at h
  rw [rowNZ]
  show ((List.enumFrom 0 (row.map uint32cast)).filter (fun p => p.2 ≠ 0)).find?
      (fun p => p.1 = j) = _
  rw [h, getD_map_uint32, List.length_map]

/-- The row-pointer list starts at zero. -/
theorem indptrOf_getD_zero (m : List (List ℕ)) : (indptrOf m).getD 0 0 = 0 := by
  cases m <;> rfl

/-- Length of the row-pointer list. -/
theorem indptrOf_length : ∀ (m : List (List ℕ)), (indptrOf m).length = m.length + 1
  | [] => rfl
  | r :: rs => by simp [indptrOf, indptrOf_length rs]

/-- getD through a map that adds a constant, inside the range. -/
theorem getD_map_add_const (c : ℕ) (l : List ℕ) (i : ℕ) (hi : i < l.length) :
    (l.map (fun t => c + t)).getD i 0 = c + l.getD i 0 := by
  rw [List.getD_eq_getElem _ _ (by simpa using hi), List.getD_eq_getElem _ _ hi,
    List.getElem_map]

/-- CSR lookup in the first row reads the cast dense entry. -/
theorem csrGet_csr_cons_zero (r : List ℕ) (rs : List (List ℕ)) (j : ℕ) :
    csrGet (csr_matrix (r :: rs)) 0 j = uint32cast (r.getD j 0) := by
  have hhi : (indptrOf (r :: rs)).getD 1 0 = (rowNZ r).length := by
    show (0 :: (indptrOf rs).map (fun t => (rowNZ r).length + t)).getD 1 0 = _
    have h0 : (indptrOf rs).getD 0 0 = 0 := indptrOf_getD_zero rs
    have hlen : 0 < (indptrOf rs).length := by rw [indptrOf_length]; omega
    simp only [List.getD_cons_succ]
    rw [getD_map_add_const _ _ 0 hlen, h0]
    omega
  simp only [csrGet, csr_matrix, List.map_cons, List.flatten_cons]
  rw [show (indptrOf (r :: rs)).getD 0 0 = 0 from indptrOf_getD_zero _, hhi]
  rw [show (rowNZ r).length = ((rowNZ r).map Prod.fst).length from (List.length_map _ _).symm]
  rw [show ((rowNZ r).map Prod.fst).length =
      ((rowNZ r).map Prod.fst).length + 0 from (Nat.add_zero _).symm]
  rw [List.take_append 0, List.take_zero, List.append_nil]
  rw [show ((rowNZ r).map Prod.fst).length + 0 =
      ((rowNZ r).map Prod.snd).length + 0 by simp]
  rw [List.take_append 0, List.take_zero, List.append_nil]
  rw [List.drop_zero, List.drop_zero, zip_map_fst_snd_eq, rowNZ_find]
  by_cases hc : j < r.length ∧ uint32cast (r.getD j 0) ≠ 0
  · rw [if_pos hc]
  · rw [if_neg hc]
    push_neg at hc
    by_cases hj : j < r.length
    · exact (hc hj).symm
    · rw [List.getD_eq_default _ _ (Nat.not_lt.mp hj)]
      rfl

/-- CSR lookup below the first row recurses into the tail matrix. -/
theorem csrGet_csr_cons_succ (r : List ℕ) (rs : List (List ℕ)) (i j : ℕ)
    (hi : i < rs.length) :
    csrGet (csr_matrix (r :: rs)) (i + 1) j = csrGet (csr_matrix rs) i j := by
  have hlo : (indptrOf (r :: rs)).getD (i + 1) 0 =
      (rowNZ r).length + (indptrOf rs).getD i 0 := by
    show (0 :: (indptrOf rs).map (fun t => (rowNZ r).length + t)).getD (i + 1) 0 = _
    simp only [List.getD_cons_succ]
    exact getD_map_add_const _ _ i (by rw [indptrOf_length]; omega)
  have hhi : (indptrOf (r :: rs)).getD (i + 2) 0 =
      (rowNZ r).length + (indptrOf rs).getD (i + 1) 0 := by
    show (0 :: (indptrOf rs).map (fun t => (rowNZ r).length + t)).getD (i + 2) 0 = _
    simp only [List.getD_cons_succ]
    exact getD_map_add_const _ _ (i + 1) (by rw [indptrOf_length]; omega)
  simp only [csrGet, csr_matrix, List.map_cons, List.flatten_cons]
  rw [show i + 1 + 1 = i + 2 by omega, hlo, hhi]
  rw [show (rowNZ r).length + (indptrOf rs).getD (i + 1) 0 =
      ((rowNZ r).map Prod.fst).length + (indptrOf rs).getD (i + 1) 0 by simp]
  rw [List.take_append]
  rw [show (rowNZ r).length + (indptrOf rs).getD i 0 =
      ((rowNZ r).map Prod.fst).length + (indptrOf rs).getD i 0 by simp]
  rw [List.drop_append]
  rw [show ((rowNZ r).map Prod.fst).length + (indptrOf rs).getD (i + 1) 0 =
      ((rowNZ r).map Prod.snd).length + (indptrOf rs).getD (i + 1) 0 by simp]
  rw [List.take_append]
  rw [show ((rowNZ r).map Prod.fst).length + (indptrOf rs).getD i 0 =
      ((rowNZ r).map Prod.snd).length + (indptrOf rs).getD i 0 by simp]
  rw [List.drop_append]

/-- CSR lookup agrees with the uint32-cast dense entry at every in-range
row index and every column index. -/
theorem csrGet_csr_matrix : ∀ (m : List (List ℕ)) (i : ℕ), i < m.length → ∀ (j : ℕ),
    csrGet (csr_matrix m) i j = uint32cast ((m.getD i []).getD j 0)
  | [], i, hi, j => by simp at hi
  | r :: rs, 0, _, j => by
    rw [csrGet_csr_cons_zero]
    rfl
  | r :: rs, i + 1, hi, j => by
    rw [csrGet_csr_cons_succ r rs i j (by simpa using hi)]
    rw [csrGet_csr_matrix rs i (by simpa using hi) j]
    rfl

/-- Characterisation of a successful transform call: with valid
configuration and a non-negative window count, the call returns the word
matrix (optionally repeat-suppressed) in the container the flags select,
and the state carries the new letter_bits and, when save_words is set,
the words. -/
theorem sax_transform_ok (cfg : SAXConfig) (st : SAXState) (X : List (List ℚ))
    (h2 : 2 ≤ cfg.alphabet_size) (h4 : cfg.alphabet_size ≤ 4)
    (hw1 : 1 ≤ cfg.word_length) (hw16 : cfg.word_length ≤ 16)
    (hwin : cfg.window_size ≤ headLength X + 1) :
    (cfg.return_pandas_data_series = false → cfg.return_sparse = true →
      sax_transform cfg st X =
        (Except.ok (SAXOutput.sparse (csr_matrix (if cfg.remove_repeat_words = true then
            remove_repeating_words (allWordsOf cfg X) else allWordsOf cfg X))),
         if cfg.save_words = true then
           ⟨if cfg.remove_repeat_words = true then
              remove_repeating_words (allWordsOf cfg X) else allWordsOf cfg X,
            ceilLog2 cfg.alphabet_size⟩
         else ⟨st.words, ceilLog2 cfg.alphabet_size⟩)) ∧
    (cfg.return_pandas_data_series = false → cfg.return_sparse = false →
      sax_transform cfg st X =
        (Except.ok (SAXOutput.dense (if cfg.remove_repeat_words = true then
            remove_repeating_words (allWordsOf cfg X) else allWordsOf cfg X)),
         if cfg.save_words = true then
           ⟨if cfg.remove_repeat_words = true then
              remove_repeating_words (allWordsOf cfg X) else allWordsOf cfg X,
            ceilLog2 cfg.alphabet_size⟩
         else ⟨st.words, ceilLog2 cfg.alphabet_size⟩)) ∧
    (cfg.return_pandas_data_series = true →
      sax_transform cfg st X =
        (Except.ok (SAXOutput.pandas (if cfg.remove_repeat_words = true then
            remove_repeating_words (allWordsOf cfg X) else allWordsOf cfg X)),
         if cfg.save_words = true then
           ⟨if cfg.remove_repeat_words = true then
              remove_repeating_words (allWordsOf cfg X) else allWordsOf cfg X,
            ceilLog2 cfg.alphabet_size⟩
         else ⟨st.words, ceilLog2 cfg.alphabet_size⟩)) := by
  have hva : ¬(cfg.alphabet_size < 2 ∨ 4 < cfg.alphabet_size) := by omega
  have hvw : ¬(cfg.word_length < 1 ∨ 16 < cfg.word_length) := by omega
  have hneg : ¬((headLength X : ℤ) - cfg.window_size + 1 < 0) := by omega
  refine ⟨?_, ?_, ?_⟩
  · intro hp hs
    simp only [sax_transform]
    rw [if_neg hva, if_neg hvw, if_neg hneg, hp, hs]
    rfl
  · intro hp hs
    simp only [sax_transform]
    rw [if_neg hva, if_neg hvw, if_neg hneg, hp, hs]
    rfl
  · intro hp
    simp only [sax_transform]
    rw [if_neg hva, if_neg hvw, if_neg hneg, hp]
    rfl

/-- Entry bound transfer through repeat suppression. -/
theorem suppressed_getD_lt (m : List (List ℕ)) (B : ℕ) (hB : 0 < B)
    (h : ∀ i j, (m.getD i []).getD j 0 < B) :
    ∀ i j, ((remove_repeating_words m).getD i []).getD j 0 < B := by
  intro i j
  by_cases hi : i < m.length
  · rw [remove_repeating_words_getD _ i hi]
    rcases remove_repeating_row_entry 0 (m.getD i []) j with hE | hE
    · rw [hE]
      exact h i j
    · rw [hE]
      exact hB
  · have hnil : (remove_repeating_words m).getD i [] = [] :=
      List.getD_eq_default _ _ (by simp only [remove_repeating_words, List.length_map]; omega)
    rw [hnil, List.getD_nil]
    exact hB

/-! ### Claim C1: dense and sparse outputs carry the same numbers -/

/-- Claim C1: for every valid configuration (alphabet_size in [2,4],
word_length in [1,16], window_size at most the series length, pandas
output off), the run with return_sparse and the run without it succeed
together, the sparse output is the CSR encoding of the dense matrix, and
reading any (instance, window) entry of the CSR matrix gives exactly the
dense entry: the uint32 cast is lossless because every word is below
2 to the 32. -/
theorem C1_dense_sparse_equivalent (wl a ws : ℕ) (rrw sw : Bool) (st : SAXState)
    (X : List (List ℚ)) (h2 : 2 ≤ a) (h4 : a ≤ 4) (hw1 : 1 ≤ wl) (hw16 : wl ≤ 16)
    (hwin : ws ≤ headLength X) :
    ∃ (C : CSR) (D : List (List ℕ)),
      (sax_transform ⟨wl, a, ws, rrw, true, sw, false⟩ st X).1 =
        Except.ok (SAXOutput.sparse C) ∧
      (sax_transform ⟨wl, a, ws, rrw, false, sw, false⟩ st X).1 =
        Except.ok (SAXOutput.dense D) ∧
      C = csr_matrix D ∧
      ∀ i j, i < D.length → csrGet C i j = (D.getD i []).getD j 0 := by
  have hT := (sax_transform_ok ⟨wl, a, ws, rrw, true, sw, false⟩ st X h2 h4 hw1 hw16
    (by simpa using Nat.le_succ_of_le hwin)).1 rfl rfl
  have hF := (sax_transform_ok ⟨wl, a, ws, rrw, false, sw, false⟩ st X h2 h4 hw1 hw16
    (by simpa using Nat.le_succ_of_le hwin)).2.1 rfl rfl
  have hbound : ∀ i j,
      ((allWordsOf ⟨wl, a, ws, rrw, false, sw, false⟩ X).getD i []).getD j 0 < 2 ^ 32 := by
    intro i j
    have hlt := allWordsOf_entry_lt ⟨wl, a, ws, rrw, false, sw, false⟩ X
      (breakpoints_length_le a h2 h4) i j
    refine lt_of_lt_of_le hlt (Nat.pow_le_pow_right (by norm_num) ?_)
    have hlb : ceilLog2 a ≤ 2 := by
      interval_cases a <;> decide
    calc ceilLog2 a * wl ≤ 2 * 16 := Nat.mul_le_mul hlb hw16
      _ = 32 := by norm_num
  have hbound2 : ∀ i j,
      (((if rrw = true then
          remove_repeating_words (allWordsOf ⟨wl, a, ws, rrw, false, sw, false⟩ X)
        else allWordsOf ⟨wl, a, ws, rrw, false, sw, false⟩ X)).getD i []).getD j 0 < 2 ^ 32 := by
    by_cases hr : rrw = true
    · rw [if_pos hr]
      exact suppressed_getD_lt _ _ (Nat.two_pow_pos 32) hbound
    · rw [if_neg hr]
      exact hbound
  refine ⟨csr_matrix (if rrw = true then
      remove_repeating_words (allWordsOf ⟨wl, a, ws, rrw, false, sw, false⟩ X)
    else allWordsOf ⟨wl, a, ws, rrw, false, sw, false⟩ X),
    (if rrw = true then
      remove_repeating_words (allWordsOf ⟨wl, a, ws, rrw, false, sw, false⟩ X)
    else allWordsOf ⟨wl, a, ws, rrw, false, sw, false⟩ X), ?_, ?_, rfl, ?_⟩
  · rw [hT]
    rfl
  · rw [hF]
  · intro i j hi
    rw [csrGet_csr_matrix _ i hi j, uint32cast, Nat.mod_eq_of_lt (hbound2 i j)]

/-- Witness for claim C1 at a concrete batch and configuration. -/
theorem C1_dense_sparse_equivalent_witness :
    ∃ (C : CSR) (D : List (List ℕ)),
      (sax_transform ⟨2, 2, 2, false, true, false, false⟩ ⟨[], 0⟩ [[1, 2, 3]]).1 =
        Except.ok (SAXOutput.sparse C) ∧
      (sax_transform ⟨2, 2, 2, false, false, false, false⟩ ⟨[], 0⟩ [[1, 2, 3]]).1 =
        Except.ok (SAXOutput.dense D) ∧
      C = csr_matrix D ∧
      ∀ i j, i < D.length → csrGet C i j = (D.getD i []).getD j 0 :=
  C1_dense_sparse_equivalent 2 2 2 false false ⟨[], 0⟩ [[1, 2, 3]]
    (by norm_num) (by norm_num) (by norm_num) (by norm_num) (by norm_num [headLength])

/-! ### List helpers for the PAA loop proofs -/

/-- getD after set at the written index. -/
theorem getD_set_self {α : Type} (l : List α) (i : ℕ) (a d : α) (h : i < l.length) :
    (l.set i a).getD i d = a := by
  rw [List.getD_eq_getElem?_getD, List.getElem?_set]
  simp [h]

/-- getD after set at another index. -/
theorem getD_set_other {α : Type} (l : List α) (i j : ℕ) (a d : α) (h : i ≠ j) :
    (l.set i a).getD j d = l.getD j d := by
  rw [List.getD_eq_getElem?_getD, List.getElem?_set, if_neg h,
    ← List.getD_eq_getElem?_getD]

/-- getD of replicate. -/
theorem getD_replicate {α : Type} (n k : ℕ) (a : α) (hk : k < n) :
    (List.replicate n a).getD k a = a := by
  rw [List.getD_eq_getElem _ _ (by simpa using hk)]
  exact List.getElem_replicate a (by simpa using hk)

/-- Packing a run of zero symbols yields the zero word. -/
theorem packWord_replicate_zero (lb : ℕ) : ∀ n : ℕ, packWord (List.replicate n 0) lb = 0 := by
  have haux : ∀ (n : ℕ) (w : ℕ), w = 0 →
      (List.replicate n (0 : ℕ)).foldl (fun w2 s => (w2 <<< lb) ||| s) w = 0 := by
    intro n
    induction n with
    | zero => intro w hw; simpa using hw
    | succ n ih =>
      intro w hw
      rw [List.replicate_succ, List.foldl_cons]
      exact ih _ (by simp [hw])
  intro n
  exact haux n 0 rfl

/-- The PAA loop never changes the length of the output buffer. -/
theorem paaLoop_data_length (fl : ℚ) : ∀ (ys : List SVal) (s : PaaState),
    ((ys.foldl (paaStep fl) s).data).length = s.data.length
  | [], _ => rfl
  | y :: ys, s => by
    rw [List.foldl_cons]
    rw [paaLoop_data_length fl ys (paaStep fl s y)]
    simp only [paaStep]
    by_cases hc : (if fl - s.currentFrameSize > 1 then s.currentFrameSize + 1
        else s.currentFrameSize + (fl - s.currentFrameSize)) = fl
    · rw [if_pos hc]
      simp
    · rw [if_neg hc]

/-! ### Weight arithmetic for the PAA segments -/

/-- A sample wholly inside segment k has weight 1. -/
theorem paaWeight_full (fl : ℚ) (k n : ℕ) (h1 : (k : ℚ) * fl ≤ n)
    (h2 : (n : ℚ) + 1 ≤ ((k : ℚ) + 1) * fl) : paaWeight fl k n = 1 := by
  rw [paaWeight, min_eq_right h2, max_eq_right h1]
  rw [max_eq_right (by linarith)]
  ring

/-- A sample ending segment k (the frame boundary falls inside it)
carries the leftover weight of the segment. -/
theorem paaWeight_end (fl : ℚ) (k n : ℕ) (h1 : (k : ℚ) * fl ≤ n)
    (h2 : ((k : ℚ) + 1) * fl ≤ (n : ℚ) + 1) (h3 : (n : ℚ) ≤ ((k : ℚ) + 1) * fl) :
    paaWeight fl k n = ((k : ℚ) + 1) * fl - n := by
  rw [paaWeight, min_eq_left h2, max_eq_right h1]
  rw [max_eq_right (by linarith)]

/-- A sample opening segment k (the segment starts inside it) carries the
complementary weight. -/
theorem paaWeight_start (fl : ℚ) (k n : ℕ) (hfl : 1 ≤ fl)
    (h1 : (k : ℚ) * fl ≤ (n : ℚ) + 1) (h2 : (n : ℚ) ≤ (k : ℚ) * fl) :
    paaWeight fl k n = (n : ℚ) + 1 - (k : ℚ) * fl := by
  rw [paaWeight, min_eq_right (by nlinarith), max_eq_left h2]
  rw [max_eq_right (by linarith)]

/-- A sample entirely before segment k has weight 0. -/
theorem paaWeight_zero_before (fl : ℚ) (k n : ℕ) (h : (n : ℚ) + 1 ≤ (k : ℚ) * fl) :
    paaWeight fl k n = 0 := by
  rw [paaWeight]
  apply max_eq_left
  have hmin : min (((k : ℚ) + 1) * fl) ((n : ℚ) + 1) ≤ (n : ℚ) + 1 := min_le_right _ _
  have hmax : (k : ℚ) * fl ≤ max ((k : ℚ) * fl) (n : ℚ) := le_max_left _ _
  linarith

/-- A sample entirely after segment k has weight 0. -/
theorem paaWeight_zero_after (fl : ℚ) (k n : ℕ) (h : ((k : ℚ) + 1) * fl ≤ n) :
    paaWeight fl k n = 0 := by
  rw [paaWeight]
  apply max_eq_left
  have hmin : min (((k : ℚ) + 1) * fl) ((n : ℚ) + 1) ≤ ((k : ℚ) + 1) * fl := min_le_left _ _
  have hmax : (n : ℚ) ≤ max ((k : ℚ) * fl) (n : ℚ) := le_max_right _ _
  linarith

/-- Main loop invariant of the PAA pass over a window of finite values:
starting from a state whose counters, running sum and written prefix are
consistent with n consumed samples, folding the remaining samples yields
the fully written output: the final frame counter equals num_intervals
and every slot k holds the closed-form segment value segSpec.  In exact
arithmetic the in-loop frame-completion test succeeds at every frame
boundary, so the loop itself fills every slot. -/
theorem paa_loop_main (fl : ℚ) (hfl : 1 ≤ fl) (I : ℕ) (xs : List ℚ)
    (hA : (xs.length : ℚ) = (I : ℚ) * fl) :
    ∀ (ys : List ℚ), ∀ (n : ℕ) (s : PaaState),
      xs.drop n = ys → n ≤ xs.length →
      s.data.length = I →
      (s.currentFrame : ℚ) * fl + s.currentFrameSize = (n : ℚ) →
      0 ≤ s.currentFrameSize →
      s.currentFrameSize < fl →
      s.frameSum = SVal.q (∑ m ∈ Finset.range n, paaWeight fl s.currentFrame m * xs.getD m 0) →
      (∀ k, k < I → s.data.getD k (SVal.q 0) =
        SVal.q (if k < s.currentFrame then segSpec xs fl k else 0)) →
      (((ys.map SVal.q).foldl (paaStep fl) s).data.length = I ∧
       ((ys.map SVal.q).foldl (paaStep fl) s).currentFrame = I ∧
       ∀ k, k < I → ((ys.map SVal.q).foldl (paaStep fl) s).data.getD k (SVal.q 0) =
         SVal.q (segSpec xs fl k)) := by
  have hfl0 : (0 : ℚ) < fl := lt_of_lt_of_le one_pos hfl
  intro ys
  induction ys with
  | nil =>
    intro n s hdrop hnle hlen hcnt hge hlt hfs hdata
    have hlendrop := congrArg List.length hdrop
    simp only [List.length_drop, List.length_nil] at hlendrop
    have hn : n = xs.length := by omega
    simp only [List.map_nil, List.foldl_nil]
    have hcnt2 : (s.currentFrame : ℚ) * fl + s.currentFrameSize = (I : ℚ) * fl := by
      rw [hcnt, ← hA, hn]
    have h2 : (s.currentFrame : ℚ) ≤ (I : ℚ) := by nlinarith
    have h3 : (I : ℚ) < (s.currentFrame : ℚ) + 1 := by nlinarith
    have hcf : s.currentFrame = I := by
      have h2n : s.currentFrame ≤ I := by exact_mod_cast h2
      have h3n : (I : ℚ) < ((s.currentFrame + 1 : ℕ) : ℚ) := by push_cast; linarith
      have h3n2 : I < s.currentFrame + 1 := by exact_mod_cast h3n
      omega
    refine ⟨hlen, hcf, ?_⟩
    intro k hk
    rw [hdata k hk, if_pos (by omega : k < s.currentFrame)]
  | cons y t ih =>
    intro n s hdrop hnle hlen hcnt hge hlt hfs hdata
    have hlendrop := congrArg List.length hdrop
    simp only [List.length_drop, List.length_cons] at hlendrop
    have hnlt : n < xs.length := by omega
    have hy : xs.getD n 0 = y := by
      have h0 : xs[n]? = some y := by
        have hgd := List.getElem?_drop xs n 0
        rw [hdrop] at hgd
        simpa using hgd.symm
      rw [List.getD_eq_getElem?_getD, h0]
      rfl
    have hdrop1 : xs.drop (n + 1) = t := by
      have hdd := List.drop_drop 1 n xs
      rw [hdrop] at hdd
      simpa using hdd.symm
    have hcfI : s.currentFrame < I := by
      have hq : (s.currentFrame : ℚ) < (I : ℚ) := by
        have hnq : ((n : ℚ)) < (xs.length : ℚ) := by exact_mod_cast hnlt
        rw [hA] at hnq
        nlinarith
      exact_mod_cast hq
    simp only [List.map_cons, List.foldl_cons]
    by_cases hrem : fl - s.currentFrameSize > 1
    · have hne : ¬(s.currentFrameSize + 1 = fl) := by
        intro heq
        rw [← heq] at hrem
        linarith
      have hstep : paaStep fl s (SVal.q y) =
          ⟨s.currentFrame, s.currentFrameSize + 1, s.frameSum.add (SVal.q y), s.data⟩ := by
        simp only [paaStep]
        rw [if_pos hrem, if_pos hrem, if_neg hne]
      rw [hstep]
      apply ih (n + 1) ⟨s.currentFrame, s.currentFrameSize + 1,
        s.frameSum.add (SVal.q y), s.data⟩ hdrop1 (by omega)
      · exact hlen
      · show (s.currentFrame : ℚ) * fl + (s.currentFrameSize + 1) = ((n + 1 : ℕ) : ℚ)
        push_cast
        linarith
      · show (0 : ℚ) ≤ s.currentFrameSize + 1
        linarith
      · show s.currentFrameSize + 1 < fl
        linarith
      · show s.frameSum.add (SVal.q y) =
          SVal.q (∑ m ∈ Finset.range (n + 1), paaWeight fl s.currentFrame m * xs.getD m 0)
        rw [hfs]
        simp only [SVal.add]
        congr 1
        rw [Finset.sum_range_succ, hy]
        have hw1 : paaWeight fl s.currentFrame n = 1 := by
          apply paaWeight_full
          · linarith
          · have : ((s.currentFrame : ℚ) + 1) * fl = (s.currentFrame : ℚ) * fl + fl := by ring
            linarith
        rw [hw1]
        ring
      · exact hdata
    · have hrem1 : fl - s.currentFrameSize ≤ 1 := le_of_not_lt hrem
      have hrem0 : 0 < fl - s.currentFrameSize := by linarith
      have hexp : ((s.currentFrame : ℚ) + 1) * fl = (s.currentFrame : ℚ) * fl + fl := by ring
      have hemit : s.currentFrameSize + (fl - s.currentFrameSize) = fl := by ring
      have hstep : paaStep fl s (SVal.q y) =
          ⟨s.currentFrame + 1, 1 - (fl - s.currentFrameSize),
            (SVal.q y).mulQ (1 - (fl - s.currentFrameSize)),
            s.data.set s.currentFrame
              ((s.frameSum.add ((SVal.q y).mulQ (fl - s.currentFrameSize))).divQ fl)⟩ := by
        simp only [paaStep]
        rw [if_neg hrem, if_neg hrem, if_pos hemit]
      rw [hstep]
      have hval : (s.frameSum.add ((SVal.q y).mulQ (fl - s.currentFrameSize))).divQ fl =
          SVal.q (segSpec xs fl s.currentFrame) := by
        rw [hfs]
        simp only [SVal.mulQ, SVal.add, SVal.divQ, if_neg (ne_of_gt hfl0)]
        congr 1
        rw [segSpec]
        have hsub : Finset.range (n + 1) ⊆ Finset.range xs.length :=
          Finset.range_subset.mpr (by omega)
        have hzero : ∀ m ∈ Finset.range xs.length, m ∉ Finset.range (n + 1) →
            paaWeight fl s.currentFrame m * xs.getD m 0 = 0 := by
          intro m _ hm2
          have hmn : n + 1 ≤ m := by
            by_contra hc
            exact hm2 (Finset.mem_range.mpr (by omega))
          have hwz : paaWeight fl s.currentFrame m = 0 := by
            apply paaWeight_zero_after
            have hmq : ((n : ℚ) + 1) ≤ (m : ℚ) := by exact_mod_cast hmn
            linarith [hexp]
          rw [hwz, zero_mul]
        rw [← Finset.sum_subset hsub hzero]
        rw [Finset.sum_range_succ, hy]
        have hwend : paaWeight fl s.currentFrame n = ((s.currentFrame : ℚ) + 1) * fl - n := by
          apply paaWeight_end
          · linarith
          · linarith [hexp]
          · linarith [hexp]
        rw [hwend]
        have hflcfs : ((s.currentFrame : ℚ) + 1) * fl - (n : ℚ) = fl - s.currentFrameSize := by
          linarith [hcnt, hexp]
        rw [hflcfs]
        ring
      apply ih (n + 1) ⟨s.currentFrame + 1, 1 - (fl - s.currentFrameSize),
        (SVal.q y).mulQ (1 - (fl - s.currentFrameSize)),
        s.data.set s.currentFrame
          ((s.frameSum.add ((SVal.q y).mulQ (fl - s.currentFrameSize))).divQ fl)⟩
        hdrop1 (by omega)
      · show (s.data.set s.currentFrame _).length = I
        rw [List.length_set]
        exact hlen
      · show ((s.currentFrame + 1 : ℕ) : ℚ) * fl + (1 - (fl - s.currentFrameSize)) =
          ((n + 1 : ℕ) : ℚ)
        push_cast
        linear_combination hcnt
      · show (0 : ℚ) ≤ 1 - (fl - s.currentFrameSize)
        linarith
      · show 1 - (fl - s.currentFrameSize) < fl
        linarith
      · show (SVal.q y).mulQ (1 - (fl - s.currentFrameSize)) =
          SVal.q (∑ m ∈ Finset.range (n + 1),
            paaWeight fl (s.currentFrame + 1) m * xs.getD m 0)
        simp only [SVal.mulQ]
        congr 1
        rw [Finset.sum_range_succ, hy]
        have hzero2 : ∑ m ∈ Finset.range n,
            paaWeight fl (s.currentFrame + 1) m * xs.getD m 0 = 0 := by
          apply Finset.sum_eq_zero
          intro m hm
          have hmn : m < n := Finset.mem_range.mp hm
          have hwz : paaWeight fl (s.currentFrame + 1) m = 0 := by
            apply paaWeight_zero_before
            have hmq : ((m : ℚ) + 1) ≤ (n : ℚ) := by exact_mod_cast hmn
            push_cast
            linarith [hcnt, hexp, hrem0]
          rw [hwz, zero_mul]
        rw [hzero2]
        have hwstart : paaWeight fl (s.currentFrame + 1) n =
            (n : ℚ) + 1 - ((s.currentFrame + 1 : ℕ) : ℚ) * fl := by
          apply paaWeight_start fl (s.currentFrame + 1) n hfl
          · push_cast
            linarith [hcnt, hexp, hrem1]
          · push_cast
            linarith [hcnt, hexp, hrem0]
        rw [hwstart]
        push_cast
        linear_combination y * hcnt
      · show ∀ k, k < I →
          (s.data.set s.currentFrame _).getD k (SVal.q 0) =
            SVal.q (if k < s.currentFrame + 1 then segSpec xs fl k else 0)
        intro k hk
        by_cases hkc : k = s.currentFrame
        · rw [hkc, getD_set_self _ _ _ _ (by rw [hlen]; exact hcfI)]
          rw [hval, if_pos (by omega)]
        · rw [getD_set_other _ _ _ _ _ (fun heq => hkc heq.symm)]
          rw [hdata k hk]
          by_cases hklt : k < s.currentFrame
          · rw [if_pos hklt, if_pos (by omega)]
          · rw [if_neg hklt, if_neg (by omega)]

/-- Claim C6: for every window and every word_length between 1 and the
window length, the PAA stage emits exactly word_length segment values in
time order, the k-th being the frame-length-normalised weighted sum of
the samples its (possibly fractional) span covers; no output slot is left
unwritten, the flush branch covering the case of an incomplete in-loop
final test (in exact arithmetic the in-loop test succeeds and the flush
is a no-op). -/
theorem C6_paa_segments (xs : List ℚ) (I : ℕ) (hI : 1 ≤ I) (hIA : I ≤ xs.length) :
    (perform_paa (xs.map SVal.q) I).length = I ∧
    ∀ k, k < I → (perform_paa (xs.map SVal.q) I).getD k (SVal.q 0) =
      SVal.q (segSpec xs ((xs.length : ℚ) / (I : ℚ)) k) := by
  have hI0 : (0 : ℚ) < (I : ℚ) := by exact_mod_cast hI
  have hIA2 : (I : ℚ) ≤ (xs.length : ℚ) := by exact_mod_cast hIA
  have hfl : 1 ≤ (xs.length : ℚ) / (I : ℚ) := (one_le_div hI0).mpr hIA2
  have hfl0 : (0 : ℚ) < (xs.length : ℚ) / (I : ℚ) := lt_of_lt_of_le one_pos hfl
  have hA : (xs.length : ℚ) = (I : ℚ) * ((xs.length : ℚ) / (I : ℚ)) := by
    field_simp
  have h := paa_loop_main ((xs.length : ℚ) / (I : ℚ)) hfl I xs hA xs 0
    ⟨0, 0, SVal.q 0, List.replicate I (SVal.q 0)⟩
    (List.drop_zero xs) (Nat.zero_le _) (by simp) (by norm_num) (by norm_num) hfl0
    (by simp) ?_
  · obtain ⟨hL, hcf, hD⟩ := h
    have hne : ¬(((List.foldl (paaStep ((xs.length : ℚ) / (I : ℚ)))
        ⟨0, 0, SVal.q 0, List.replicate I (SVal.q 0)⟩ (xs.map SVal.q)).currentFrame : ℤ) =
        (I : ℤ) - 1) := by
      rw [hcf]
      omega
    constructor
    · show (perform_paa (xs.map SVal.q) I).length = I
      simp only [perform_paa, List.length_map]
      rw [if_neg hne]
      exact hL
    · intro k hk
      show (perform_paa (xs.map SVal.q) I).getD k (SVal.q 0) = _
      simp only [perform_paa, List.length_map]
      rw [if_neg hne]
      exact hD k hk
  · intro k hk
    show (List.replicate I (SVal.q 0)).getD k (SVal.q 0) = SVal.q (if k < 0 then _ else 0)
    rw [getD_replicate I k (SVal.q 0) hk]
    simp

/-- Witness for claim C6 at the window [1, 2, 3] compressed to 2
segments. -/
theorem C6_paa_segments_witness :
    (perform_paa ([(1 : ℚ), 2, 3].map SVal.q) 2).length = 2 ∧
    ∀ k, k < 2 → (perform_paa ([(1 : ℚ), 2, 3].map SVal.q) 2).getD k (SVal.q 0) =
      SVal.q (segSpec [(1 : ℚ), 2, 3] ((([(1 : ℚ), 2, 3].length : ℕ) : ℚ) / ((2 : ℕ) : ℚ)) k) :=
  C6_paa_segments [(1 : ℚ), 2, 3] 2 (by norm_num) (by norm_num)

/-- Mapping a constant over a list is replicate. -/
theorem map_const_replicate {α β : Type} (b : β) : ∀ (l : List α),
    l.map (fun _ => b) = List.replicate l.length b
  | [] => rfl
  | x :: xs => by simp [map_const_replicate b xs, List.replicate_succ]

/-- A list of known length whose getD entries are all v is a replicate. -/
theorem eq_replicate_of_getD {α : Type} (l : List α) (n : ℕ) (v d : α)
    (hlen : l.length = n) (h : ∀ k, k < n → l.getD k d = v) :
    l = List.replicate n v := by
  apply List.ext_getElem (by simp [hlen])
  intro i h1 h2
  rw [List.getElem_replicate]
  rw [← List.getD_eq_getElem l d h1]
  exact h i (by omega)

/-- PAA loop invariant over an all-nan window: the running sum turns nan
at the first contribution, every emitted slot is nan, and at the end all
frames have been emitted. -/
theorem paa_loop_nan (fl : ℚ) (hfl : 1 ≤ fl) (I : ℕ) (A : ℕ)
    (hA : (A : ℚ) = (I : ℚ) * fl) :
    ∀ (c : ℕ), ∀ (n : ℕ) (s : PaaState),
      n + c = A →
      s.data.length = I →
      (s.currentFrame : ℚ) * fl + s.currentFrameSize = (n : ℚ) →
      0 ≤ s.currentFrameSize →
      s.currentFrameSize < fl →
      (∀ k, k < I → s.data.getD k (SVal.q 0) =
        (if k < s.currentFrame then SVal.nan else SVal.q 0)) →
      (((List.replicate c SVal.nan).foldl (paaStep fl) s).data.length = I ∧
       ((List.replicate c SVal.nan).foldl (paaStep fl) s).currentFrame = I ∧
       ∀ k, k < I →
         ((List.replicate c SVal.nan).foldl (paaStep fl) s).data.getD k (SVal.q 0) =
           SVal.nan) := by
  have hfl0 : (0 : ℚ) < fl := lt_of_lt_of_le one_pos hfl
  intro c
  induction c with
  | zero =>
    intro n s hnc hlen hcnt hge hlt hdata
    simp only [List.replicate, List.foldl_nil]
    have hn : n = A := by omega
    have hcnt2 : (s.currentFrame : ℚ) * fl + s.currentFrameSize = (I : ℚ) * fl := by
      rw [hcnt, hn, hA]
    have h2 : (s.currentFrame : ℚ) ≤ (I : ℚ) := by nlinarith
    have h3 : (I : ℚ) < (s.currentFrame : ℚ) + 1 := by nlinarith
    have hcf : s.currentFrame = I := by
      have h2n : s.currentFrame ≤ I := by exact_mod_cast h2
      have h3n : (I : ℚ) < ((s.currentFrame + 1 : ℕ) : ℚ) := by push_cast; linarith
      have h3n2 : I < s.currentFrame + 1 := by exact_mod_cast h3n
      omega
    refine ⟨hlen, hcf, ?_⟩
    intro k hk
    rw [hdata k hk, if_pos (by omega : k < s.currentFrame)]
  | succ c ihc =>
    intro n s hnc hlen hcnt hge hlt hdata
    have hnlt : n < A := by omega
    have hcfI : s.currentFrame < I := by
      have hq : (s.currentFrame : ℚ) < (I : ℚ) := by
        have hnq : (n : ℚ) < (A : ℚ) := by exact_mod_cast hnlt
        rw [hA] at hnq
        nlinarith
      exact_mod_cast hq
    rw [List.replicate_succ, List.foldl_cons]
    by_cases hrem : fl - s.currentFrameSize > 1
    · have hne : ¬(s.currentFrameSize + 1 = fl) := by
        intro heq
        rw [← heq] at hrem
        linarith
      have hstep : paaStep fl s SVal.nan =
          ⟨s.currentFrame, s.currentFrameSize + 1, s.frameSum.add SVal.nan, s.data⟩ := by
        simp only [paaStep]
        rw [if_pos hrem, if_pos hrem, if_neg hne]
      rw [hstep]
      apply ihc (n + 1) ⟨s.currentFrame, s.currentFrameSize + 1,
        s.frameSum.add SVal.nan, s.data⟩ (by omega)
      · exact hlen
      · show (s.currentFrame : ℚ) * fl + (s.currentFrameSize + 1) = ((n + 1 : ℕ) : ℚ)
        push_cast
        linarith
      · show (0 : ℚ) ≤ s.currentFrameSize + 1
        linarith
      · show s.currentFrameSize + 1 < fl
        linarith
      · exact hdata
    · have hrem1 : fl - s.currentFrameSize ≤ 1 := le_of_not_lt hrem
      have hrem0 : 0 < fl - s.currentFrameSize := by linarith
      have hemit : s.currentFrameSize + (fl - s.currentFrameSize) = fl := by ring
      have hstep : paaStep fl s SVal.nan =
          ⟨s.currentFrame + 1, 1 - (fl - s.currentFrameSize),
            SVal.nan.mulQ (1 - (fl - s.currentFrameSize)),
            s.data.set s.currentFrame
              ((s.frameSum.add (SVal.nan.mulQ (fl - s.currentFrameSize))).divQ fl)⟩ := by
        simp only [paaStep]
        rw [if_neg hrem, if_neg hrem, if_pos hemit]
      rw [hstep]
      have hv : (s.frameSum.add (SVal.nan.mulQ (fl - s.currentFrameSize))).divQ fl =
          SVal.nan := by
        cases s.frameSum <;> rfl
      apply ihc (n + 1) ⟨s.currentFrame + 1, 1 - (fl - s.currentFrameSize),
        SVal.nan.mulQ (1 - (fl - s.currentFrameSize)),
        s.data.set s.currentFrame
          ((s.frameSum.add (SVal.nan.mulQ (fl - s.currentFrameSize))).divQ fl)⟩ (by omega)
      · show (s.data.set s.currentFrame _).length = I
        rw [List.length_set]
        exact hlen
      · show ((s.currentFrame + 1 : ℕ) : ℚ) * fl + (1 - (fl - s.currentFrameSize)) =
          ((n + 1 : ℕ) : ℚ)
        push_cast
        linear_combination hcnt
      · show (0 : ℚ) ≤ 1 - (fl - s.currentFrameSize)
        linarith
      · show 1 - (fl - s.currentFrameSize) < fl
        linarith
      · show ∀ k, k < I →
          (s.data.set s.currentFrame _).getD k (SVal.q 0) =
            (if k < s.currentFrame + 1 then SVal.nan else SVal.q 0)
        intro k hk
        by_cases hkc : k = s.currentFrame
        · rw [hkc, getD_set_self _ _ _ _ (by rw [hlen]; exact hcfI)]
          rw [hv, if_pos (by omega)]
        · rw [getD_set_other _ _ _ _ _ (fun heq => hkc heq.symm)]
          rw [hdata k hk]
          by_cases hklt : k < s.currentFrame
          · rw [if_pos hklt, if_pos (by omega)]
          · rw [if_neg hklt, if_neg (by omega)]

/-- PAA of an all-nan window fills every slot with nan. -/
theorem perform_paa_nan (A I : ℕ) (hI : 1 ≤ I) (hIA : I ≤ A) :
    perform_paa (List.replicate A SVal.nan) I = List.replicate I SVal.nan := by
  have hI0 : (0 : ℚ) < (I : ℚ) := by exact_mod_cast hI
  have hIA2 : (I : ℚ) ≤ (A : ℚ) := by exact_mod_cast hIA
  have hfl : 1 ≤ (A : ℚ) / (I : ℚ) := (one_le_div hI0).mpr hIA2
  have hfl0 : (0 : ℚ) < (A : ℚ) / (I : ℚ) := lt_of_lt_of_le one_pos hfl
  have hA : (A : ℚ) = (I : ℚ) * ((A : ℚ) / (I : ℚ)) := by field_simp
  have h := paa_loop_nan ((A : ℚ) / (I : ℚ)) hfl I A hA A 0
    ⟨0, 0, SVal.q 0, List.replicate I (SVal.q 0)⟩ (by omega) (by simp)
    (by norm_num) (by norm_num) hfl0 ?_
  · obtain ⟨hL, hcf, hD⟩ := h
    have hne : ¬(((List.foldl (paaStep ((A : ℚ) / (I : ℚ)))
        ⟨0, 0, SVal.q 0, List.replicate I (SVal.q 0)⟩ (List.replicate A SVal.nan)).currentFrame
          : ℤ) = (I : ℤ) - 1) := by
      rw [hcf]
      omega
    show perform_paa (List.replicate A SVal.nan) I = _
    simp only [perform_paa, List.length_replicate]
    rw [if_neg hne]
    exact eq_replicate_of_getD _ I SVal.nan (SVal.q 0) hL hD
  · intro k hk
    show (List.replicate I (SVal.q 0)).getD k (SVal.q 0) = (if k < 0 then _ else SVal.q 0)
    rw [getD_replicate I k (SVal.q 0) hk]
    simp

/-- filterMap of the breakpoint scan over an all-nan pattern is empty. -/
theorem filterMap_symIdx_nan (svar : ℚ) (bps : List Bp) : ∀ (n : ℕ),
    List.filterMap (fun x => symIdx x svar bps) (List.replicate n SVal.nan) = []
  | 0 => rfl
  | n + 1 => by
    rw [List.replicate_succ, List.filterMap_cons, symIdx_nan]
    exact filterMap_symIdx_nan svar bps n

/-- Per-window word of a zero-variance window: the z-scores are all nan,
the PAA segments are all nan, no segment emits a symbol, and the packed
word is 0. -/
theorem wordOfWindow_zero_var (a L : ℕ) (win : List ℚ) (hL1 : 1 ≤ L)
    (hLw : L ≤ win.length) (hvar : listVar win = 0) :
    wordOfWindow a L win = 0 := by
  simp only [wordOfWindow, zscore_scaled, if_pos hvar]
  rw [map_const_replicate, perform_paa_nan win.length L hL1 hLw]
  rw [generate_words_eq_pack]
  rw [List.take_replicate, min_self, filterMap_symIdx_nan]
  rfl

/-! ### Claim C4: zero-variance windows propagate silently to word 0 -/

/-- Claim C4: a zero-variance window z-normalises to all-nan, the nan
values propagate through PAA into an all-nan pattern, the encoder raises
nothing and packs the window to the word 0, which is exactly the packing
of the all-lowest-symbol sequence; and a transform call with a valid
configuration never raises, whatever the data. -/
theorem C4_zero_variance (a L : ℕ) (win : List ℚ) (hL1 : 1 ≤ L)
    (hLw : L ≤ win.length) (hvar : listVar win = 0) :
    (zscore_scaled win).1 = List.replicate win.length SVal.nan ∧
    perform_paa (List.replicate win.length SVal.nan) L = List.replicate L SVal.nan ∧
    wordOfWindow a L win = 0 ∧
    wordOfWindow a L win = packWord (List.replicate L 0) (ceilLog2 a) ∧
    (∀ (cfg : SAXConfig) (st : SAXState) (X : List (List ℚ)),
      2 ≤ cfg.alphabet_size → cfg.alphabet_size ≤ 4 →
      1 ≤ cfg.word_length → cfg.word_length ≤ 16 →
      cfg.window_size ≤ headLength X + 1 →
      ∃ r st2, sax_transform cfg st X = (Except.ok r, st2)) := by
  refine ⟨?_, perform_paa_nan win.length L hL1 hLw,
    wordOfWindow_zero_var a L win hL1 hLw hvar, ?_, ?_⟩
  · simp only [zscore_scaled, if_pos hvar]
    exact map_const_replicate SVal.nan win
  · rw [wordOfWindow_zero_var a L win hL1 hLw hvar, packWord_replicate_zero]
  · intro cfg st X h2 h4 hw1 hw16 hwin
    obtain ⟨hsp, hde, hpa⟩ := sax_transform_ok cfg st X h2 h4 hw1 hw16 hwin
    by_cases hp : cfg.return_pandas_data_series = true
    · exact ⟨_, _, hpa hp⟩
    · have hp2 : cfg.return_pandas_data_series = false := by
        simpa using hp
      by_cases hs : cfg.return_sparse = true
      · exact ⟨_, _, hsp hp2 hs⟩
      · exact ⟨_, _, hde hp2 (by simpa using hs)⟩

/-- Witness for claim C4 at the constant window [5, 5] with alphabet_size
4 and word_length 2. -/
theorem C4_zero_variance_witness :
    (zscore_scaled [(5 : ℚ), 5]).1 = List.replicate ([(5 : ℚ), 5]).length SVal.nan ∧
    perform_paa (List.replicate ([(5 : ℚ), 5]).length SVal.nan) 2 =
      List.replicate 2 SVal.nan ∧
    wordOfWindow 4 2 [(5 : ℚ), 5] = 0 ∧
    wordOfWindow 4 2 [(5 : ℚ), 5] = packWord (List.replicate 2 0) (ceilLog2 4) ∧
    (∀ (cfg : SAXConfig) (st : SAXState) (X : List (List ℚ)),
      2 ≤ cfg.alphabet_size → cfg.alphabet_size ≤ 4 →
      1 ≤ cfg.word_length → cfg.word_length ≤ 16 →
      cfg.window_size ≤ headLength X + 1 →
      ∃ r st2, sax_transform cfg st X = (Except.ok r, st2)) :=
  C4_zero_variance 4 2 [(5 : ℚ), 5] (by norm_num) (by norm_num)
    (by norm_num [listVar, listMean])
